import Mathlib

/-!
Shallow embedding of the git-graph layout model builder (`mapPostsToGraph`
and its data model) of this repository, together with proofs settling the
frozen claims about it.

Modelling conventions:

* Post dates are ISO date strings in the source, parsed with `new Date` and
  compared after `setHours(0,0,0,0)`; we model a date directly as its
  day-granular calendar triple (year, zero-based month, day), compared
  lexicographically, which is the behavior of the source for ISO dates in a
  UTC environment.
* JavaScript numbers used here are integers (pixel coordinates, indices,
  calendar fields); coordinates are modelled as `Int` (they can go
  negative: branch rails fan out to the left of `MAIN_X`).
* The ambient clock read (`new Date()`) is modelled as an explicit `today`
  parameter, as the specification requires for determinism.
* The source's `LAYOUT_CONSTANTS` are passed as an explicit record so that
  claims about varying them can be stated; `LAYOUT_CONSTANTS` below is the
  default record with the source's values.
* `tags` being `undefined` in the source is modelled as the empty list; the
  JS truthiness test `primaryTag ?` treats the empty string as absent, and
  the embedding mirrors that explicitly.
-/

namespace GitGraph

/-- Calendar date at day granularity (what the source compares after
`setHours(0,0,0,0)`): year, zero-based month as produced by `getMonth()`,
and day of month. -/
structure Date where
  year : Nat
  month : Nat
  day : Nat
deriving DecidableEq, Repr

/-- Day-granular timestamp comparison `a.getTime() <= b.getTime()`,
lexicographic on (year, month, day). -/
def dateLE (a b : Date) : Bool :=
  (a.year < b.year) ||
    (a.year = b.year &&
      ((a.month < b.month) || (a.month = b.month && a.day ≤ b.day)))

/-- Day-granular timestamp comparison `a.getTime() < b.getTime()`,
strict lexicographic on (year, month, day). -/
def dateLT (a b : Date) : Bool :=
  (a.year < b.year) ||
    (a.year = b.year &&
      ((a.month < b.month) || (a.month = b.month && a.day < b.day)))

/-- Input record: `CoreContent<Blog>` fields used by the layout core. -/
structure Post where
  slug : String
  title : String
  summary : Option String
  date : Date
  tags : List String
  draft : Bool
deriving DecidableEq, Repr

/-- Layout constants record; the source's `LAYOUT_CONSTANTS` object shape. -/
structure LayoutConstants where
  ROW_HEIGHT : Int
  PADDING_TOP : Int
  PADDING_BOTTOM : Int
  MAIN_X : Int
  BRANCH_SPACING : Int
  LABEL_WIDTH : Int
deriving DecidableEq, Repr

/-- Default layout constants, values from the source. -/
def LAYOUT_CONSTANTS : LayoutConstants :=
  ⟨48, 24, 24, 150, 80, 100⟩

/-- Modelled from the spec: branch ids are URL-safe slugs of the tag text.
The source delegates to the external `github-slugger` package (not part of
this repository); for the tag texts relevant here this lower-cases the
string and replaces spaces with hyphens. -/
def slug (s : String) : String :=
  ⟨s.data.map (fun c => if c = ' ' then '-' else c.toLower)⟩

/-- Branch record of the output model. `x` is always assigned at
construction in the source, so it is not optional here. -/
structure Branch where
  id : String
  name : String
  color : String
  x : Int
deriving DecidableEq, Repr

/-- Fixed eight-color palette of `getBranchColor`. -/
def branchColors : List String :=
  ["#3b82f6", "#10b981", "#f59e0b", "#ef4444",
   "#8b5cf6", "#ec4899", "#06b6d4", "#f97316"]

/-- Color for a tag branch: palette indexed by rank modulo palette size. -/
def getBranchColor (index : Nat) : String :=
  branchColors.getD (index % branchColors.length) ""

/-- Separator kind discriminant. -/
inductive SepKind where
  | year
  | month
deriving DecidableEq, Repr

/-- Graph node: tagged union of the four node variants, with the fields the
source assigns (coordinates are always assigned at construction). -/
inductive GraphNode where
  | commit (id branch slg title : String) (summary : Option String)
      (date : Date) (x y : Int)
  | merge (id branch slg : String) (date : Date) (x y : Int)
  | separator (id label : String) (kind : SepKind) (x y : Int)
  | today (id : String) (date : Date) (x y : Int)
deriving DecidableEq, Repr

/-- Unique identifier of a node. -/
def GraphNode.nodeId : GraphNode → String
  | .commit i _ _ _ _ _ _ _ => i
  | .merge i _ _ _ _ _ => i
  | .separator i _ _ _ _ => i
  | .today i _ _ _ => i

/-- Vertical coordinate of a node. -/
def GraphNode.nodeY : GraphNode → Int
  | .commit _ _ _ _ _ _ _ y => y
  | .merge _ _ _ _ _ y => y
  | .separator _ _ _ _ y => y
  | .today _ _ _ y => y

/-- Horizontal coordinate of a node. -/
def GraphNode.nodeX : GraphNode → Int
  | .commit _ _ _ _ _ _ x _ => x
  | .merge _ _ _ _ x _ => x
  | .separator _ _ _ x _ => x
  | .today _ _ x _ => x

/-- Branch field of a node (`"main"` for merge dots; empty for the
structural variants, which carry no branch in the source). -/
def GraphNode.nodeBranch : GraphNode → String
  | .commit _ b _ _ _ _ _ _ => b
  | .merge _ b _ _ _ _ => b
  | .separator _ _ _ _ _ => ""
  | .today _ _ _ _ => ""

/-- Post slug carried by a node (empty for the structural variants). -/
def GraphNode.nodeSlug : GraphNode → String
  | .commit _ _ s _ _ _ _ _ => s
  | .merge _ _ s _ _ _ => s
  | .separator _ _ _ _ _ => ""
  | .today _ _ _ _ => ""

/-- Discriminant test: commit node. -/
def GraphNode.isCommit : GraphNode → Bool
  | .commit _ _ _ _ _ _ _ _ => true
  | _ => false

/-- Discriminant test: merge node. -/
def GraphNode.isMerge : GraphNode → Bool
  | .merge _ _ _ _ _ _ => true
  | _ => false

/-- Discriminant test: separator node. -/
def GraphNode.isSeparator : GraphNode → Bool
  | .separator _ _ _ _ _ => true
  | _ => false

/-- Discriminant test: today node. -/
def GraphNode.isToday : GraphNode → Bool
  | .today _ _ _ _ => true
  | _ => false

/-- Edge of the output model; the only kind produced is
`"merge-connector"`. -/
structure Edge where
  id : String
  fromId : String
  toId : String
  kind : String
deriving DecidableEq, Repr

/-- Complete output model. -/
structure GraphModel where
  branches : List Branch
  nodes : List GraphNode
  edges : List Edge
deriving DecidableEq, Repr

/-- Drafts are filtered out first: `posts.filter((post) => !post.draft)`. -/
def publishedPosts (posts : List Post) : List Post :=
  posts.filter (fun p => !p.draft)

/-- Primary tag of a record, `post.tags[0]` when the tag list is nonempty
(`post.tags && post.tags.length > 0`); the raw value, which may be the
empty string. -/
def primaryRawTag (p : Post) : Option String :=
  p.tags.head?

/-- JS-truthy primary tag: the source's `primaryTag ? ... : ...` treats the
empty string as absent. -/
def truthyTag (p : Post) : Option String :=
  match p.tags.head? with
  | some t => if t = "" then none else some t
  | none => none

/-- Insertion-ordered deduplication with an accumulator of already-seen
elements. -/
def dedupFirstAux (seen : List String) : List String → List String
  | [] => []
  | t :: ts =>
    if t ∈ seen then dedupFirstAux seen ts
    else t :: dedupFirstAux (t :: seen) ts

/-- Insertion-ordered deduplication, modelling iteration over a JS `Set`
populated in record order (first occurrence wins). -/
def dedupFirst (l : List String) : List String :=
  dedupFirstAux [] l

/-- Distinct primary tags of the published records, in first-occurrence
order (the contents of `tagSet`). -/
def collectTags (ps : List Post) : List String :=
  dedupFirst (ps.filterMap primaryRawTag)

/-- Comparator used to sort tags: case-insensitive ascending, modelling
`a.toLowerCase().localeCompare(b.toLowerCase())`. -/
def tagLE (a b : String) : Prop :=
  a.toLower ≤ b.toLower

instance : DecidableRel tagLE := fun a b =>
  inferInstanceAs (Decidable (a.toLower ≤ b.toLower))

instance : IsTotal String tagLE :=
  ⟨fun a b => le_total a.toLower b.toLower⟩

instance : IsTrans String tagLE :=
  ⟨fun _ _ _ h1 h2 => le_trans h1 h2⟩

/-- Sorted distinct tags: stable sort by the case-insensitive comparator,
modelling `Array.from(tagSet).sort(...)`. -/
def sortedTagsOf (ps : List Post) : List String :=
  List.insertionSort tagLE (collectTags ps)

/-- Main branch record: fixed id, name, neutral color, `x = MAIN_X`. -/
def mainBranch (C : LayoutConstants) : Branch :=
  ⟨"main", "main", "#6b7280", C.MAIN_X⟩

/-- Tag branches: for the sorted tag at rank `i` out of `N`,
`x = MAIN_X - (N - i) * BRANCH_SPACING`, color by rank. -/
def tagBranches (C : LayoutConstants) (N : Nat) : Nat → List String → List Branch
  | _, [] => []
  | i, t :: ts =>
    ⟨slug t, t, getBranchColor i,
      C.MAIN_X - ((N - i : Nat) : Int) * C.BRANCH_SPACING⟩ ::
      tagBranches C N (i + 1) ts

/-- Branch list of the model: main first, then the sorted tag branches. -/
def mkBranches (C : LayoutConstants) (ps : List Post) : List Branch :=
  mainBranch C :: tagBranches C (sortedTagsOf ps).length 0 (sortedTagsOf ps)

/-- Lookup in `branchMap`, a JS `Map` built from the branch list: for
duplicate ids the last entry wins. -/
def branchLookup (bs : List Branch) (i : String) : Option Branch :=
  bs.foldl (fun acc b => if b.id = i then some b else acc) none

/-- Branch id a record's commit is tagged with:
`primaryTag ? slug(primaryTag) : 'main'`. -/
def branchIdOf (p : Post) : String :=
  match truthyTag p with
  | some t => slug t
  | none => "main"

/-- Commit id string: `commit-${branchId}-${post.slug}` on the tagged
route, `commit-main-${post.slug}` on the main route (the same formula,
since the main route has branch id `"main"`). -/
def commitIdOf (p : Post) : String :=
  "commit-" ++ branchIdOf p ++ "-" ++ p.slug

/-- Merge id string: `merge-${post.slug}`. -/
def mergeIdOf (p : Post) : String :=
  "merge-" ++ p.slug

/-- Vertical coordinate of the record at sequential index `i`:
`PADDING_TOP + index * ROW_HEIGHT`. -/
def rowY (C : LayoutConstants) (i : Nat) : Int :=
  C.PADDING_TOP + (i : Int) * C.ROW_HEIGHT

/-- Nodes emitted for the record at index `i`: on the tagged route (truthy
primary tag and successful branch lookup) a lane commit plus a merge dot on
main; otherwise a main-lane commit. -/
def postNodes (C : LayoutConstants) (bs : List Branch) (i : Nat) (p : Post) :
    List GraphNode :=
  match truthyTag p, branchLookup bs (branchIdOf p) with
  | some _, some b =>
    [.commit (commitIdOf p) (branchIdOf p) p.slug p.title p.summary p.date
        b.x (rowY C i),
     .merge (mergeIdOf p) "main" p.slug p.date C.MAIN_X (rowY C i)]
  | _, _ =>
    [.commit (commitIdOf p) "main" p.slug p.title p.summary p.date
        C.MAIN_X (rowY C i)]

/-- Edges emitted for the record at index `i`: one connector on the tagged
route, none otherwise. -/
def postEdges (C : LayoutConstants) (bs : List Branch) (p : Post) :
    List Edge :=
  match truthyTag p, branchLookup bs (branchIdOf p) with
  | some _, some _ =>
    [⟨"edge-" ++ commitIdOf p ++ "-" ++ mergeIdOf p,
      commitIdOf p, mergeIdOf p, "merge-connector"⟩]
  | _, _ => []

/-- First sweep of `mapPostsToGraph`: per published record, in order, emit
its commit (and merge plus connector on the tagged route). -/
def buildMain (C : LayoutConstants) (bs : List Branch) :
    Nat → List Post → List GraphNode × List Edge
  | _, [] => ([], [])
  | i, p :: ps =>
    let rest := buildMain C bs (i + 1) ps
    (postNodes C bs i p ++ rest.1, postEdges C bs p ++ rest.2)

/-- Decimal digit character, as JS number-to-string produces. -/
def digitChar (n : Nat) : Char :=
  Nat.digitChar n

/-- Decimal string of a natural number, modelling JS template
interpolation `${n}` / `String(n)` of an integer-valued number. -/
def natStr (n : Nat) : String :=
  if h : n < 10 then ⟨[digitChar n]⟩
  else natStr (n / 10) ++ ⟨[digitChar (n % 10)]⟩
termination_by n
decreasing_by
  exact Nat.div_lt_self (by omega) (by omega)

/-- Month abbreviations used for month separator labels. -/
def monthNames : List String :=
  ["Jan", "Feb", "Mar", "Apr", "May", "Jun",
   "Jul", "Aug", "Sep", "Oct", "Nov", "Dec"]

/-- Year separator node at boundary index `i` for calendar year `yr`. -/
def yearSepNode (C : LayoutConstants) (i : Nat) (yr : Nat) : GraphNode :=
  .separator ("separator-year-" ++ natStr yr) (natStr yr) .year 0
    (rowY C i - C.ROW_HEIGHT / 2)

/-- Month separator node at boundary index `i` for year `yr`, month `mo`;
label `"{MonthAbbrev} {year}"`. -/
def monthSepNode (C : LayoutConstants) (i : Nat) (yr mo : Nat) : GraphNode :=
  .separator ("separator-month-" ++ natStr yr ++ "-" ++ natStr mo)
    (monthNames.getD mo "undefined" ++ " " ++ natStr yr) .month 0
    (rowY C i - C.ROW_HEIGHT / 2)

/-- Second sweep of `mapPostsToGraph`: scan the published records tracking
the previous record's year and month (`lastYear`, `lastMonth`; both `none`
exactly before the first record), inserting a year separator when the year
changes and a month separator when the month changes within the same
year. -/
def sepPass (C : LayoutConstants) :
    Nat → Option (Nat × Nat) → List Post → List GraphNode
  | _, _, [] => []
  | i, last, p :: ps =>
    let here : List GraphNode :=
      match last with
      | none => []
      | some (ly, lm) =>
        (if p.date.year ≠ ly then [yearSepNode C i p.date.year] else []) ++
          (if p.date.month ≠ lm ∧ p.date.year = ly then
            [monthSepNode C i p.date.year p.date.month] else [])
    here ++ sepPass C (i + 1) (some (p.date.year, p.date.month)) ps

/-- Scan from the newest record for the first whose date is on or before
today, returning that record's row coordinate. -/
def findTodayY (C : LayoutConstants) (today : Date) :
    Nat → List Post → Option Int
  | _, [] => none
  | i, p :: ps =>
    if dateLE p.date today then some (rowY C i)
    else findTodayY C today (i + 1) ps

/-- Position of the today marker: `PADDING_TOP` when there are no records
or today is on-or-before the newest record's date; otherwise the row of the
first record dated on-or-before today (`none` if no record qualifies). -/
def todayYOf (C : LayoutConstants) (today : Date) : List Post → Option Int
  | [] => some C.PADDING_TOP
  | p :: ps =>
    if dateLT p.date today then findTodayY C today 0 (p :: ps)
    else some C.PADDING_TOP

/-- Today marker node. -/
def todayNode (today : Date) (y : Int) : GraphNode :=
  .today "today-marker" today 0 y

/-- Today marker list: emitted only when a position was computed and it is
strictly positive. -/
def todayNodes (C : LayoutConstants) (today : Date) (pub : List Post) :
    List GraphNode :=
  match todayYOf C today pub with
  | some y => if 0 < y then [todayNode today y] else []
  | none => []

/-- Shallow embedding of `mapPostsToGraph`, with the layout constants and
the ambient clock passed explicitly. -/
def mapPostsToGraph (C : LayoutConstants) (today : Date)
    (posts : List Post) : GraphModel :=
  let pub := publishedPosts posts
  let branches := mkBranches C pub
  let built := buildMain C branches 0 pub
  ⟨branches,
    built.1 ++ sepPass C 0 none pub ++ todayNodes C today pub,
    built.2⟩

/-- Whether a record takes the tagged route (truthy primary tag; the branch
lookup also succeeds for every published record, proved below). -/
def tagged (p : Post) : Bool :=
  (truthyTag p).isSome

/-- The single commit node emitted for the record at index `i`. -/
def commitNodeOf (C : LayoutConstants) (bs : List Branch) (i : Nat)
    (p : Post) : GraphNode :=
  match truthyTag p, branchLookup bs (branchIdOf p) with
  | some _, some b =>
    .commit (commitIdOf p) (branchIdOf p) p.slug p.title p.summary p.date
      b.x (rowY C i)
  | _, _ =>
    .commit (commitIdOf p) "main" p.slug p.title p.summary p.date
      C.MAIN_X (rowY C i)

/-- The merge node paired with the record at index `i` (tagged route). -/
def mergeNodeOf (C : LayoutConstants) (i : Nat) (p : Post) : GraphNode :=
  .merge (mergeIdOf p) "main" p.slug p.date C.MAIN_X (rowY C i)

/-- The commit sub-sequence of the first sweep, one node per record. -/
def commitsAux (C : LayoutConstants) (bs : List Branch) :
    Nat → List Post → List GraphNode
  | _, [] => []
  | i, p :: ps => commitNodeOf C bs i p :: commitsAux C bs (i + 1) ps

/-- The merge sub-sequence of the first sweep, one node per tagged-route
record. -/
def mergesAux (C : LayoutConstants) (bs : List Branch) :
    Nat → List Post → List GraphNode
  | _, [] => []
  | i, p :: ps =>
    (match truthyTag p, branchLookup bs (branchIdOf p) with
      | some _, some _ => [mergeNodeOf C i p]
      | _, _ => []) ++ mergesAux C bs (i + 1) ps

/-- Separator emitted between an adjacent pair of records, phrased as the
specification words it: a year separator labeled with the new year when the
years differ, else a month separator when the month differs within the same
year, at `y` halfway above the current row; at most one per boundary. -/
def boundarySeps (C : LayoutConstants) (i : Nat) (prev cur : Post) :
    List GraphNode :=
  if cur.date.year ≠ prev.date.year then
    [yearSepNode C i cur.date.year]
  else if cur.date.month ≠ prev.date.month then
    [monthSepNode C i cur.date.year cur.date.month]
  else []

/-- Adjacent-pair form of the separator sweep: fold `boundarySeps` over
consecutive record pairs. -/
def adjSeps (C : LayoutConstants) : Nat → Post → List Post → List GraphNode
  | _, _, [] => []
  | i, prev, p :: ps => boundarySeps C i prev p ++ adjSeps C (i + 1) p ps

/-- Separator list of a record list in adjacent-pair form. -/
def specSeps (C : LayoutConstants) : List Post → List GraphNode
  | [] => []
  | p :: ps => adjSeps C 1 p ps

/-- Decimal digit accumulation step, used to read a number back from its
decimal string. -/
def decValStep (a : Nat) (c : Char) : Nat :=
  10 * a + (c.toNat - 48)

/-- Value of a decimal digit string. -/
def decVal (l : List Char) : Nat :=
  l.foldl decValStep 0

/-- Whether the first sweep takes the tagged route for a record: truthy
primary tag and successful branch lookup. -/
def routeTagged (bs : List Branch) (p : Post) : Bool :=
  (truthyTag p).isSome && (branchLookup bs (branchIdOf p)).isSome

/-- Commit nodes of a model. -/
def commitNodes (G : GraphModel) : List GraphNode :=
  G.nodes.filter GraphNode.isCommit

/-- Merge nodes of a model. -/
def mergeNodes (G : GraphModel) : List GraphNode :=
  G.nodes.filter GraphNode.isMerge

/-- Separator nodes of a model. -/
def sepNodes (G : GraphModel) : List GraphNode :=
  G.nodes.filter GraphNode.isSeparator

/-- Today-marker nodes of a model. -/
def todayMarks (G : GraphModel) : List GraphNode :=
  G.nodes.filter GraphNode.isToday

/-- Node ids contributed per record by the first sweep. -/
def idsAux (bs : List Branch) : List Post → List String
  | [] => []
  | p :: ps =>
    (if routeTagged bs p then [commitIdOf p, mergeIdOf p]
      else [commitIdOf p]) ++ idsAux bs ps

/-- Strict lexicographic order on (year, month) pairs. -/
def pairLT (a b : Nat × Nat) : Prop :=
  a.1 < b.1 ∨ (a.1 = b.1 ∧ a.2 < b.2)

/-! ## Basic lemmas: dates, rows, decimal strings -/

/-- Propositional form of the day-granular `≤` comparison. -/
theorem dateLE_iff (a b : Date) :
    dateLE a b = true ↔
      (a.year < b.year ∨ (a.year = b.year ∧
        (a.month < b.month ∨ (a.month = b.month ∧ a.day ≤ b.day)))) := by
  simp [dateLE]

/-- Propositional form of the day-granular `<` comparison. -/
theorem dateLT_iff (a b : Date) :
    dateLT a b = true ↔
      (a.year < b.year ∨ (a.year = b.year ∧
        (a.month < b.month ∨ (a.month = b.month ∧ a.day < b.day)))) := by
  simp [dateLT]

/-- Strict day-granular comparison implies the reflexive one. -/
theorem dateLE_of_dateLT {a b : Date} (h : dateLT a b = true) :
    dateLE a b = true := by
  rw [dateLT_iff] at h
  rw [dateLE_iff]
  omega

/-- The `≤` comparison is monotone on the year field. -/
theorem year_le_of_dateLE {a b : Date} (h : dateLE a b = true) :
    a.year ≤ b.year := by
  rw [dateLE_iff] at h
  omega

/-- The `≤` comparison is monotone on the (year, month) pair. -/
theorem pair_le_of_dateLE {a b : Date} (h : dateLE a b = true) :
    a.year < b.year ∨ (a.year = b.year ∧ a.month ≤ b.month) := by
  rw [dateLE_iff] at h
  omega

/-- Row coordinates under the default constants. -/
theorem rowY_default (i : Nat) :
    rowY LAYOUT_CONSTANTS i = 24 + 48 * (i : Int) := by
  simp [rowY, LAYOUT_CONSTANTS]
  ring

/-- Row coordinates are injective in the index (default constants). -/
theorem rowY_default_inj {i j : Nat}
    (h : rowY LAYOUT_CONSTANTS i = rowY LAYOUT_CONSTANTS j) : i = j := by
  rw [rowY_default, rowY_default] at h
  omega

/-- The digit characters carry their value. -/
theorem digitChar_toNat (k : Nat) (h : k < 10) :
    (digitChar k).toNat = 48 + k := by
  interval_cases k <;> rfl

/-- Digit characters are never the hyphen. -/
theorem digitChar_ne_dash (k : Nat) (h : k < 10) : digitChar k ≠ '-' := by
  interval_cases k <;> decide

/-- Unfolding equation for `natStr` at the level of character data. -/
theorem natStr_data (n : Nat) :
    (natStr n).data =
      if n < 10 then [digitChar n]
      else (natStr (n / 10)).data ++ [digitChar (n % 10)] := by
  rw [natStr.eq_def]
  split <;> simp_all

/-- A decimal string evaluates back to the number it was produced from. -/
theorem decVal_natStr (n : Nat) : decVal (natStr n).data = n := by
  induction n using Nat.strong_induction_on with
  | _ n ih =>
    rw [decVal, natStr_data]
    by_cases h : n < 10
    · simp only [h, if_true, List.foldl_cons, List.foldl_nil, decValStep]
      rw [digitChar_toNat n h]
      omega
    · simp only [h, if_false, List.foldl_append]
      have hdiv : n / 10 < n := Nat.div_lt_self (by omega) (by omega)
      have hrec := ih (n / 10) hdiv
      rw [decVal] at hrec
      rw [hrec]
      simp only [List.foldl_cons, List.foldl_nil, decValStep]
      rw [digitChar_toNat (n % 10) (Nat.mod_lt _ (by omega))]
      omega

/-- Decimal stringification is injective. -/
theorem natStr_inj {m n : Nat} (h : natStr m = natStr n) : m = n := by
  have h2 := congrArg (fun s => decVal s.data) h
  simpa [decVal_natStr] using h2

/-- Decimal strings contain no hyphen. -/
theorem natStr_no_dash (n : Nat) : ∀ c ∈ (natStr n).data, c ≠ '-' := by
  induction n using Nat.strong_induction_on with
  | _ n ih =>
    intro c hc
    rw [natStr_data] at hc
    by_cases h : n < 10
    · simp only [h, if_true, List.mem_singleton] at hc
      subst hc
      exact digitChar_ne_dash n h
    · simp only [h, if_false, List.mem_append, List.mem_singleton] at hc
      rcases hc with hc | hc
      · exact ih (n / 10) (Nat.div_lt_self (by omega) (by omega)) c hc
      · subst hc
        exact digitChar_ne_dash (n % 10) (Nat.mod_lt _ (by omega))

/-! ## Node-id string lemmas -/

/-- Left cancellation for string concatenation. -/
theorem str_append_left_cancel {s t u : String} (h : s ++ t = s ++ u) :
    t = u := by
  have h2 := congrArg String.data h
  simp only [String.data_append] at h2
  exact String.ext (List.append_cancel_left h2)

/-- Splitting a hyphen-delimited concatenation of hyphen-free parts is
unambiguous. -/
theorem dash_split {l1 r1 l2 r2 : List Char} (h1 : ∀ c ∈ l1, c ≠ '-')
    (h2 : ∀ c ∈ l2, c ≠ '-')
    (h : l1 ++ '-' :: r1 = l2 ++ '-' :: r2) : l1 = l2 ∧ r1 = r2 := by
  induction l1 generalizing l2 with
  | nil =>
    cases l2 with
    | nil => simpa using h
    | cons b bs =>
      simp only [List.nil_append, List.cons_append, List.cons.injEq] at h
      exact absurd h.1.symm (h2 b (by simp))
  | cons a as ih =>
    cases l2 with
    | nil =>
      simp only [List.cons_append, List.nil_append, List.cons.injEq] at h
      exact absurd h.1 (h1 a (by simp))
    | cons b bs =>
      simp only [List.cons_append, List.cons.injEq] at h
      obtain ⟨rfl, h3⟩ := h
      have h4 := ih (fun c hc => h1 c (by simp [hc]))
        (fun c hc => h2 c (by simp [hc])) h3
      exact ⟨by rw [h4.1], h4.2⟩

/-- Commit-shaped and merge-shaped ids never coincide. -/
theorem commitId_ne_mergeId (a b c : String) :
    "commit-" ++ a ++ "-" ++ b ≠ "merge-" ++ c := by
  intro h
  have h2 := congrArg (fun s => s.data.head?) h
  have hc : "commit-".data = ['c', 'o', 'm', 'm', 'i', 't', '-'] := rfl
  have hm : "merge-".data = ['m', 'e', 'r', 'g', 'e', '-'] := rfl
  simp [String.data_append, hc, hm] at h2

/-- Commit-shaped and year-separator ids never coincide. -/
theorem commitId_ne_yearId (a b c : String) :
    "commit-" ++ a ++ "-" ++ b ≠ "separator-year-" ++ c := by
  intro h
  have h2 := congrArg (fun s => s.data.head?) h
  have hc : "commit-".data = ['c', 'o', 'm', 'm', 'i', 't', '-'] := rfl
  have hs : "separator-year-".data =
    ['s', 'e', 'p', 'a', 'r', 'a', 't', 'o', 'r', '-', 'y', 'e', 'a', 'r', '-'] := rfl
  simp [String.data_append, hc, hs] at h2

/-- Commit-shaped and month-separator ids never coincide. -/
theorem commitId_ne_monthId (a b c d : String) :
    "commit-" ++ a ++ "-" ++ b ≠ "separator-month-" ++ c ++ "-" ++ d := by
  intro h
  have h2 := congrArg (fun s => s.data.head?) h
  have hc : "commit-".data = ['c', 'o', 'm', 'm', 'i', 't', '-'] := rfl
  have hs : "separator-month-".data =
    ['s', 'e', 'p', 'a', 'r', 'a', 't', 'o', 'r', '-', 'm', 'o', 'n', 't', 'h', '-'] := rfl
  simp [String.data_append, hc, hs] at h2

/-- Commit-shaped ids never equal the today-marker id. -/
theorem commitId_ne_todayId (a b : String) :
    "commit-" ++ a ++ "-" ++ b ≠ "today-marker" := by
  intro h
  have h2 := congrArg (fun s => s.data.head?) h
  have hc : "commit-".data = ['c', 'o', 'm', 'm', 'i', 't', '-'] := rfl
  have ht : "today-marker".data =
    ['t', 'o', 'd', 'a', 'y', '-', 'm', 'a', 'r', 'k', 'e', 'r'] := rfl
  simp [String.data_append, hc, ht] at h2

/-- Merge-shaped and year-separator ids never coincide. -/
theorem mergeId_ne_yearId (a c : String) :
    "merge-" ++ a ≠ "separator-year-" ++ c := by
  intro h
  have h2 := congrArg (fun s => s.data.head?) h
  have hm : "merge-".data = ['m', 'e', 'r', 'g', 'e', '-'] := rfl
  have hs : "separator-year-".data =
    ['s', 'e', 'p', 'a', 'r', 'a', 't', 'o', 'r', '-', 'y', 'e', 'a', 'r', '-'] := rfl
  simp [String.data_append, hm, hs] at h2

/-- Merge-shaped and month-separator ids never coincide. -/
theorem mergeId_ne_monthId (a c d : String) :
    "merge-" ++ a ≠ "separator-month-" ++ c ++ "-" ++ d := by
  intro h
  have h2 := congrArg (fun s => s.data.head?) h
  have hm : "merge-".data = ['m', 'e', 'r', 'g', 'e', '-'] := rfl
  have hs : "separator-month-".data =
    ['s', 'e', 'p', 'a', 'r', 'a', 't', 'o', 'r', '-', 'm', 'o', 'n', 't', 'h', '-'] := rfl
  simp [String.data_append, hm, hs] at h2

/-- Merge-shaped ids never equal the today-marker id. -/
theorem mergeId_ne_todayId (a : String) :
    "merge-" ++ a ≠ "today-marker" := by
  intro h
  have h2 := congrArg (fun s => s.data.head?) h
  have hm : "merge-".data = ['m', 'e', 'r', 'g', 'e', '-'] := rfl
  have ht : "today-marker".data =
    ['t', 'o', 'd', 'a', 'y', '-', 'm', 'a', 'r', 'k', 'e', 'r'] := rfl
  simp [String.data_append, hm, ht] at h2

/-- Year- and month-separator ids never coincide. -/
theorem yearId_ne_monthId (a c d : String) :
    "separator-year-" ++ a ≠ "separator-month-" ++ c ++ "-" ++ d := by
  intro h
  have h2 := congrArg (fun s => s.data.get? 10) h
  have hy : "separator-year-".data =
    ['s', 'e', 'p', 'a', 'r', 'a', 't', 'o', 'r', '-', 'y', 'e', 'a', 'r', '-'] := rfl
  have hs : "separator-month-".data =
    ['s', 'e', 'p', 'a', 'r', 'a', 't', 'o', 'r', '-', 'm', 'o', 'n', 't', 'h', '-'] := rfl
  simp [String.data_append, hy, hs] at h2

/-- Year-separator ids never equal the today-marker id. -/
theorem yearId_ne_todayId (a : String) :
    "separator-year-" ++ a ≠ "today-marker" := by
  intro h
  have h2 := congrArg (fun s => s.data.head?) h
  have hy : "separator-year-".data =
    ['s', 'e', 'p', 'a', 'r', 'a', 't', 'o', 'r', '-', 'y', 'e', 'a', 'r', '-'] := rfl
  have ht : "today-marker".data =
    ['t', 'o', 'd', 'a', 'y', '-', 'm', 'a', 'r', 'k', 'e', 'r'] := rfl
  simp [String.data_append, hy, ht] at h2

/-- Month-separator ids never equal the today-marker id. -/
theorem monthId_ne_todayId (c d : String) :
    "separator-month-" ++ c ++ "-" ++ d ≠ "today-marker" := by
  intro h
  have h2 := congrArg (fun s => s.data.head?) h
  have hs : "separator-month-".data =
    ['s', 'e', 'p', 'a', 'r', 'a', 't', 'o', 'r', '-', 'm', 'o', 'n', 't', 'h', '-'] := rfl
  have ht : "today-marker".data =
    ['t', 'o', 'd', 'a', 'y', '-', 'm', 'a', 'r', 'k', 'e', 'r'] := rfl
  simp [String.data_append, hs, ht] at h2

/-- Merge ids are distinct for distinct slugs. -/
theorem mergeId_inj {a b : String} (h : "merge-" ++ a = "merge-" ++ b) :
    a = b :=
  str_append_left_cancel h

/-- Year-separator ids are distinct for distinct years. -/
theorem yearId_inj {y1 y2 : Nat}
    (h : "separator-year-" ++ natStr y1 = "separator-year-" ++ natStr y2) :
    y1 = y2 :=
  natStr_inj (str_append_left_cancel h)

/-- Month-separator ids are distinct for distinct (year, month) pairs. -/
theorem monthId_inj {y1 m1 y2 m2 : Nat}
    (h : "separator-month-" ++ natStr y1 ++ "-" ++ natStr m1 =
      "separator-month-" ++ natStr y2 ++ "-" ++ natStr m2) :
    y1 = y2 ∧ m1 = m2 := by
  have h2 := congrArg String.data h
  simp only [String.data_append, List.append_assoc] at h2
  have h3 := List.append_cancel_left h2
  simp only [List.singleton_append] at h3
  have h4 := dash_split (natStr_no_dash y1) (natStr_no_dash y2) h3
  exact ⟨natStr_inj (String.ext h4.1), natStr_inj (String.ext h4.2)⟩

/-! ## Structural lemmas about the sweeps -/

/-- The commit sub-sequence of the first sweep is one commit per record. -/
theorem buildMain_filter_commit (C : LayoutConstants) (bs : List Branch) :
    ∀ (i : Nat) (ps : List Post),
      ((buildMain C bs i ps).1.filter GraphNode.isCommit) =
        commitsAux C bs i ps := by
  intro i ps
  induction ps generalizing i with
  | nil => rfl
  | cons p ps ih =>
    simp only [buildMain, commitsAux, List.filter_append]
    rw [ih]
    cases ht : truthyTag p with
    | none =>
      simp [postNodes, commitNodeOf, ht, GraphNode.isCommit, List.filter]
    | some t =>
      cases hb : branchLookup bs (branchIdOf p) with
      | none =>
        simp [postNodes, commitNodeOf, ht, hb, GraphNode.isCommit, List.filter]
      | some b =>
        simp [postNodes, commitNodeOf, ht, hb, GraphNode.isCommit, List.filter]

/-- The merge sub-sequence of the first sweep. -/
theorem buildMain_filter_merge (C : LayoutConstants) (bs : List Branch) :
    ∀ (i : Nat) (ps : List Post),
      ((buildMain C bs i ps).1.filter GraphNode.isMerge) =
        mergesAux C bs i ps := by
  intro i ps
  induction ps generalizing i with
  | nil => rfl
  | cons p ps ih =>
    simp only [buildMain, mergesAux, List.filter_append]
    rw [ih]
    cases ht : truthyTag p with
    | none =>
      simp [postNodes, mergeNodeOf, ht, GraphNode.isMerge, List.filter]
    | some t =>
      cases hb : branchLookup bs (branchIdOf p) with
      | none =>
        simp [postNodes, mergeNodeOf, ht, hb, GraphNode.isMerge, List.filter]
      | some b =>
        simp [postNodes, mergeNodeOf, ht, hb, GraphNode.isMerge, List.filter]

/-- One commit per record. -/
theorem commitsAux_length (C : LayoutConstants) (bs : List Branch) :
    ∀ (i : Nat) (ps : List Post),
      (commitsAux C bs i ps).length = ps.length := by
  intro i ps
  induction ps generalizing i with
  | nil => rfl
  | cons p ps ih => simp [commitsAux, ih]

/-- Element lookup in the commit sub-sequence. -/
theorem commitsAux_get? (C : LayoutConstants) (bs : List Branch) :
    ∀ (i j : Nat) (ps : List Post),
      (commitsAux C bs i ps).get? j =
        (ps.get? j).map (fun p => commitNodeOf C bs (i + j) p) := by
  intro i j ps
  induction ps generalizing i j with
  | nil => simp [commitsAux]
  | cons p ps ih =>
    cases j with
    | zero => simp [commitsAux]
    | succ j =>
      simp only [commitsAux, List.get?_cons_succ, ih (i + 1) j]
      have : i + 1 + j = i + (j + 1) := by omega
      rw [this]

/-- The vertical coordinate of a record's commit node. -/
theorem commitNodeOf_y (C : LayoutConstants) (bs : List Branch) (i : Nat)
    (p : Post) : (commitNodeOf C bs i p).nodeY = rowY C i := by
  unfold commitNodeOf
  cases truthyTag p with
  | none => rfl
  | some t =>
    cases branchLookup bs (branchIdOf p) with
    | none => rfl
    | some b => rfl

/-- The slug carried by a record's commit node. -/
theorem commitNodeOf_slug (C : LayoutConstants) (bs : List Branch) (i : Nat)
    (p : Post) : (commitNodeOf C bs i p).nodeSlug = p.slug := by
  unfold commitNodeOf
  cases truthyTag p with
  | none => rfl
  | some t =>
    cases branchLookup bs (branchIdOf p) with
    | none => rfl
    | some b => rfl

/-- The id carried by a record's commit node. -/
theorem commitNodeOf_id (C : LayoutConstants) (bs : List Branch) (i : Nat)
    (p : Post) : (commitNodeOf C bs i p).nodeId = commitIdOf p := by
  unfold commitNodeOf
  cases truthyTag p with
  | none => rfl
  | some t =>
    cases branchLookup bs (branchIdOf p) with
    | none => rfl
    | some b => rfl

/-- Commit nodes of the first sweep are commits. -/
theorem commitNodeOf_isCommit (C : LayoutConstants) (bs : List Branch)
    (i : Nat) (p : Post) : (commitNodeOf C bs i p).isCommit = true := by
  unfold commitNodeOf
  cases truthyTag p with
  | none => rfl
  | some t =>
    cases branchLookup bs (branchIdOf p) with
    | none => rfl
    | some b => rfl

/-- One merge per tagged-route record. -/
theorem mergesAux_length (C : LayoutConstants) (bs : List Branch) :
    ∀ (i : Nat) (ps : List Post),
      (mergesAux C bs i ps).length =
        (ps.filter (routeTagged bs)).length := by
  intro i ps
  induction ps generalizing i with
  | nil => rfl
  | cons p ps ih =>
    simp only [mergesAux]
    cases ht : truthyTag p with
    | none =>
      simp [routeTagged, ht, ih, List.filter]
    | some t =>
      cases hb : branchLookup bs (branchIdOf p) with
      | none => simp [routeTagged, ht, hb, ih, List.filter]
      | some b => simp [routeTagged, ht, hb, ih, List.filter]

/-- Membership characterization of the merge sub-sequence. -/
theorem mem_mergesAux (C : LayoutConstants) (bs : List Branch) :
    ∀ (i : Nat) (ps : List Post) (n : GraphNode), n ∈ mergesAux C bs i ps →
      ∃ j, ∃ h : j < ps.length,
        n = mergeNodeOf C (i + j) (ps.get ⟨j, h⟩) ∧
          routeTagged bs (ps.get ⟨j, h⟩) = true := by
  intro i ps
  induction ps generalizing i with
  | nil => intro n hn; simp [mergesAux] at hn
  | cons p ps ih =>
    intro n hn
    simp only [mergesAux, List.mem_append] at hn
    rcases hn with hn | hn
    · refine ⟨0, by simp, ?_⟩
      cases ht : truthyTag p with
      | none => rw [ht] at hn; simp at hn
      | some t =>
        cases hb : branchLookup bs (branchIdOf p) with
        | none => rw [ht, hb] at hn; simp at hn
        | some b =>
          rw [ht, hb] at hn
          simp only [List.mem_singleton] at hn
          subst hn
          simp [routeTagged, ht, hb]
    · obtain ⟨j, hj, he, hr⟩ := ih (i + 1) n hn
      refine ⟨j + 1, by simpa using Nat.succ_lt_succ hj, ?_⟩
      have : i + 1 + j = i + (j + 1) := by omega
      rw [← this]
      exact ⟨he, hr⟩

/-- Conversely, each tagged-route record contributes its merge node. -/
theorem mergeNodeOf_mem_mergesAux (C : LayoutConstants) (bs : List Branch) :
    ∀ (i : Nat) (ps : List Post) (j : Nat) (h : j < ps.length),
      routeTagged bs (ps.get ⟨j, h⟩) = true →
        mergeNodeOf C (i + j) (ps.get ⟨j, h⟩) ∈ mergesAux C bs i ps := by
  intro i ps
  induction ps generalizing i with
  | nil => intro j h; simp at h
  | cons p ps ih =>
    intro j h hr
    cases j with
    | zero =>
      simp only [List.get] at hr ⊢
      simp only [routeTagged, Bool.and_eq_true, Option.isSome_iff_exists] at hr
      obtain ⟨⟨t, ht⟩, ⟨b, hb⟩⟩ := hr
      simp [mergesAux, ht, hb]
    | succ j =>
      have hj : j < ps.length := by simpa using Nat.lt_of_succ_lt_succ h
      simp only [List.get] at hr ⊢
      have hmem := ih (i + 1) j hj hr
      have harith : i + 1 + j = i + (j + 1) := by omega
      rw [harith] at hmem
      simp only [mergesAux, List.mem_append]
      exact Or.inr hmem

/-- All nodes of the separator sweep are separators. -/
theorem sepPass_all_separator (C : LayoutConstants) :
    ∀ (i : Nat) (last : Option (Nat × Nat)) (ps : List Post)
      (n : GraphNode), n ∈ sepPass C i last ps → n.isSeparator = true := by
  intro i last ps
  induction ps generalizing i last with
  | nil => intro n hn; simp [sepPass] at hn
  | cons p ps ih =>
    intro n hn
    simp only [sepPass, List.mem_append] at hn
    rcases hn with hn | hn
    · cases last with
      | none => simp at hn
      | some pr =>
        obtain ⟨ly, lm⟩ := pr
        simp only [List.mem_append] at hn
        rcases hn with hn | hn
        · by_cases hy : p.date.year ≠ ly
          · simp only [if_pos hy, List.mem_singleton] at hn
            subst hn; rfl
          · simp [if_neg hy] at hn
        · by_cases hm : p.date.month ≠ lm ∧ p.date.year = ly
          · simp only [if_pos hm, List.mem_singleton] at hn
            subst hn; rfl
          · simp [if_neg hm] at hn
    · exact ih (i + 1) _ n hn

/-- All nodes of the today sweep are today markers. -/
theorem todayNodes_all_today (C : LayoutConstants) (today : Date)
    (pub : List Post) :
    ∀ n ∈ todayNodes C today pub, n.isToday = true := by
  intro n hn
  unfold todayNodes at hn
  cases h : todayYOf C today pub with
  | none => rw [h] at hn; simp at hn
  | some y =>
    rw [h] at hn
    by_cases hy : 0 < y
    · simp only [if_pos hy, List.mem_singleton] at hn
      subst hn; rfl
    · simp [if_neg hy] at hn

/-- The computed today position is always the top padding. -/
theorem todayYOf_eq (C : LayoutConstants) (today : Date) (pub : List Post) :
    todayYOf C today pub = some C.PADDING_TOP := by
  cases pub with
  | nil => rfl
  | cons p ps =>
    unfold todayYOf
    by_cases h : dateLT p.date today = true
    · simp only [h, if_true, findTodayY, dateLE_of_dateLT h, rowY]
      simp
    · simp [h]

/-- The today sweep in closed form: the marker sits at the top padding and
is emitted exactly when that is strictly positive. -/
theorem todayNodes_eq (C : LayoutConstants) (today : Date) (pub : List Post) :
    todayNodes C today pub =
      if 0 < C.PADDING_TOP then [todayNode today C.PADDING_TOP] else [] := by
  unfold todayNodes
  rw [todayYOf_eq]

/-- Boundary separators in source (stateful) and specification
(adjacent-pair) form agree. -/
theorem sepPass_eq_adjSeps (C : LayoutConstants) :
    ∀ (i : Nat) (prev : Post) (ps : List Post),
      sepPass C i (some (prev.date.year, prev.date.month)) ps =
        adjSeps C i prev ps := by
  intro i prev ps
  induction ps generalizing i prev with
  | nil => rfl
  | cons p ps ih =>
    simp only [sepPass, adjSeps, ih]
    congr 1
    unfold boundarySeps
    by_cases hy : p.date.year ≠ prev.date.year
    · simp only [if_pos hy]
      have : ¬(p.date.month ≠ prev.date.month ∧ p.date.year = prev.date.year) := by
        intro hc
        exact hy hc.2
      simp [this]
    · simp only [if_neg hy]
      push_neg at hy
      by_cases hm : p.date.month ≠ prev.date.month
      · simp [hm, hy]
      · simp [hm, hy]

/-- The separator sweep over the published list equals its adjacent-pair
form. -/
theorem sepPass_eq_specSeps (C : LayoutConstants) (pub : List Post) :
    sepPass C 0 none pub = specSeps C pub := by
  cases pub with
  | nil => rfl
  | cons p ps =>
    simp only [sepPass, specSeps, List.nil_append]
    exact sepPass_eq_adjSeps C 1 p ps

/-! ## Branch registry lemmas -/

/-- Ids of the tag branches are the slugs of the sorted tags. -/
theorem tagBranches_ids (C : LayoutConstants) (N : Nat) :
    ∀ (i : Nat) (st : List String),
      (tagBranches C N i st).map Branch.id = st.map slug := by
  intro i st
  induction st generalizing i with
  | nil => rfl
  | cons t ts ih => simp [tagBranches, ih]

/-- One branch per sorted tag. -/
theorem tagBranches_length (C : LayoutConstants) (N : Nat) :
    ∀ (i : Nat) (st : List String),
      (tagBranches C N i st).length = st.length := by
  intro i st
  induction st generalizing i with
  | nil => rfl
  | cons t ts ih => simp [tagBranches, ih]

/-- Element lookup in the tag branch list. -/
theorem tagBranches_get? (C : LayoutConstants) (N : Nat) :
    ∀ (i j : Nat) (st : List String),
      (tagBranches C N i st).get? j =
        (st.get? j).map (fun t =>
          (⟨slug t, t, getBranchColor (i + j),
            C.MAIN_X - ((N - (i + j) : Nat) : Int) * C.BRANCH_SPACING⟩ :
            Branch)) := by
  intro i j st
  induction st generalizing i j with
  | nil => simp [tagBranches]
  | cons t ts ih =>
    cases j with
    | zero => simp [tagBranches]
    | succ j =>
      simp only [tagBranches, List.get?_cons_succ, ih (i + 1) j]
      have : i + 1 + j = i + (j + 1) := by omega
      rw [this]

/-- Lookup in the branch map succeeds exactly when some branch carries the
id (the fold keeps the last match; success is what matters here). -/
theorem branchLookup_isSome_iff (s : String) :
    ∀ (bs : List Branch),
      (branchLookup bs s).isSome = true ↔ ∃ b ∈ bs, b.id = s := by
  have aux : ∀ (bs : List Branch) (acc : Option Branch),
      (bs.foldl (fun acc b => if b.id = s then some b else acc) acc).isSome =
          true ↔
        acc.isSome = true ∨ ∃ b ∈ bs, b.id = s := by
    intro bs
    induction bs with
    | nil => simp
    | cons b bs ih =>
      intro acc
      simp only [List.foldl_cons]
      rw [ih]
      by_cases hb : b.id = s
      · simp [hb]
      · simp only [if_neg hb, List.mem_cons]
        constructor
        · rintro (h | h)
          · exact Or.inl h
          · exact Or.inr ⟨h.choose, Or.inr h.choose_spec.1, h.choose_spec.2⟩
        · rintro (h | ⟨c, hc | hc, hcs⟩)
          · exact Or.inl h
          · exact absurd (hc ▸ hcs) hb
          · exact Or.inr ⟨c, hc, hcs⟩
  intro bs
  rw [branchLookup, aux]
  simp

/-- Membership in the deduplication accumulator form. -/
theorem mem_dedupFirstAux (t : String) :
    ∀ (l seen : List String),
      t ∈ dedupFirstAux seen l ↔ t ∈ l ∧ t ∉ seen := by
  intro l
  induction l with
  | nil => simp [dedupFirstAux]
  | cons u us ih =>
    intro seen
    simp only [dedupFirstAux]
    by_cases hu : u ∈ seen
    · rw [if_pos hu, ih]
      constructor
      · rintro ⟨h1, h2⟩
        exact ⟨List.mem_cons_of_mem _ h1, h2⟩
      · rintro ⟨h1, h2⟩
        rcases List.mem_cons.mp h1 with rfl | h3
        · exact absurd hu h2
        · exact ⟨h3, h2⟩
    · rw [if_neg hu]
      constructor
      · intro h
        rcases List.mem_cons.mp h with rfl | h1
        · exact ⟨List.mem_cons_self _ _, hu⟩
        · obtain ⟨h2, h3⟩ := (ih (u :: seen)).mp h1
          exact ⟨List.mem_cons_of_mem _ h2,
            fun hc => h3 (List.mem_cons_of_mem _ hc)⟩
      · rintro ⟨h1, h2⟩
        rcases List.mem_cons.mp h1 with rfl | h3
        · exact List.mem_cons_self _ _
        · by_cases ht : t = u
          · subst ht; exact List.mem_cons_self _ _
          · refine List.mem_cons_of_mem _ ((ih (u :: seen)).mpr ⟨h3, ?_⟩)
            intro hc
            rcases List.mem_cons.mp hc with h4 | h4
            · exact ht h4
            · exact h2 h4

/-- Deduplication preserves membership. -/
theorem mem_dedupFirst (t : String) (l : List String) :
    t ∈ dedupFirst l ↔ t ∈ l := by
  rw [dedupFirst, mem_dedupFirstAux]
  simp

/-- Deduplication yields distinct elements. -/
theorem dedupFirstAux_nodup :
    ∀ (l seen : List String), (dedupFirstAux seen l).Nodup := by
  intro l
  induction l with
  | nil => intro seen; simp [dedupFirstAux]
  | cons u us ih =>
    intro seen
    simp only [dedupFirstAux]
    by_cases hu : u ∈ seen
    · rw [if_pos hu]; exact ih seen
    · rw [if_neg hu]
      refine List.nodup_cons.mpr ⟨?_, ih (u :: seen)⟩
      intro hc
      exact ((mem_dedupFirstAux u us (u :: seen)).mp hc).2 (List.mem_cons_self u seen)

/-- The distinct-primary-tag list has distinct elements. -/
theorem collectTags_nodup (ps : List Post) : (collectTags ps).Nodup :=
  dedupFirstAux_nodup _ []

/-- Membership of the distinct-primary-tag list. -/
theorem mem_collectTags (t : String) (ps : List Post) :
    t ∈ collectTags ps ↔ ∃ p ∈ ps, primaryRawTag p = some t := by
  rw [collectTags, mem_dedupFirst, List.mem_filterMap]

/-- Membership of the sorted tag list. -/
theorem mem_sortedTagsOf (t : String) (ps : List Post) :
    t ∈ sortedTagsOf ps ↔ ∃ p ∈ ps, primaryRawTag p = some t := by
  rw [sortedTagsOf, (List.perm_insertionSort tagLE (collectTags ps)).mem_iff,
    mem_collectTags]

/-- A truthy primary tag is in particular the raw primary tag. -/
theorem primaryRawTag_of_truthyTag {p : Post} {t : String}
    (h : truthyTag p = some t) : primaryRawTag p = some t := by
  cases hts : p.tags with
  | nil => simp [truthyTag, hts] at h
  | cons u us =>
    simp only [truthyTag, hts, List.head?_cons] at h
    by_cases hu : u = ""
    · simp [hu] at h
    · simp only [if_neg hu] at h
      simp [primaryRawTag, hts, h]

/-- Branch id of a record with a truthy tag. -/
theorem branchIdOf_of_truthyTag {p : Post} {t : String}
    (h : truthyTag p = some t) : branchIdOf p = slug t := by
  unfold branchIdOf
  rw [h]

/-- Branch lookup succeeds for every published record with a truthy primary
tag. -/
theorem lookup_success (C : LayoutConstants) {pub : List Post} {p : Post}
    {t : String} (hp : p ∈ pub) (ht : truthyTag p = some t) :
    (branchLookup (mkBranches C pub) (branchIdOf p)).isSome = true := by
  rw [branchIdOf_of_truthyTag ht, branchLookup_isSome_iff]
  have htag : t ∈ sortedTagsOf pub :=
    (mem_sortedTagsOf t pub).mpr ⟨p, hp, primaryRawTag_of_truthyTag ht⟩
  have hid : slug t ∈ (tagBranches C (sortedTagsOf pub).length 0
      (sortedTagsOf pub)).map Branch.id := by
    rw [tagBranches_ids]
    exact List.mem_map_of_mem slug htag
  obtain ⟨b, hb, hbs⟩ := List.mem_map.mp hid
  exact ⟨b, List.mem_cons_of_mem _ hb, hbs⟩

/-- On published records the tagged route coincides with tag truthiness. -/
theorem routeTagged_iff (C : LayoutConstants) {pub : List Post} {p : Post}
    (hp : p ∈ pub) :
    routeTagged (mkBranches C pub) p = tagged p := by
  unfold routeTagged tagged
  cases ht : truthyTag p with
  | none => simp
  | some t =>
    simp only [Option.isSome_some, Bool.true_and]
    exact lookup_success C hp ht

/-! ## Segment decomposition of the node list -/

/-- Separator nodes are not commits. -/
theorem not_commit_of_separator {n : GraphNode} (h : n.isSeparator = true) :
    n.isCommit = false := by
  cases n <;> simp_all [GraphNode.isSeparator, GraphNode.isCommit]

/-- Separator nodes are not merges. -/
theorem not_merge_of_separator {n : GraphNode} (h : n.isSeparator = true) :
    n.isMerge = false := by
  cases n <;> simp_all [GraphNode.isSeparator, GraphNode.isMerge]

/-- Separator nodes are not today markers. -/
theorem not_today_of_separator {n : GraphNode} (h : n.isSeparator = true) :
    n.isToday = false := by
  cases n <;> simp_all [GraphNode.isSeparator, GraphNode.isToday]

/-- Today markers are not commits. -/
theorem not_commit_of_today {n : GraphNode} (h : n.isToday = true) :
    n.isCommit = false := by
  cases n <;> simp_all [GraphNode.isToday, GraphNode.isCommit]

/-- Today markers are not merges. -/
theorem not_merge_of_today {n : GraphNode} (h : n.isToday = true) :
    n.isMerge = false := by
  cases n <;> simp_all [GraphNode.isToday, GraphNode.isMerge]

/-- Nodes of the first sweep are commits or merges. -/
theorem buildMain_kinds (C : LayoutConstants) (bs : List Branch) :
    ∀ (i : Nat) (ps : List Post) (n : GraphNode),
      n ∈ (buildMain C bs i ps).1 →
        n.isCommit = true ∨ n.isMerge = true := by
  intro i ps
  induction ps generalizing i with
  | nil => intro n hn; simp [buildMain] at hn
  | cons p ps ih =>
    intro n hn
    simp only [buildMain, List.mem_append] at hn
    rcases hn with hn | hn
    · unfold postNodes at hn
      cases ht : truthyTag p with
      | none =>
        rw [ht] at hn
        simp only [List.mem_singleton] at hn
        subst hn; exact Or.inl rfl
      | some t =>
        cases hb : branchLookup bs (branchIdOf p) with
        | none =>
          rw [ht, hb] at hn
          simp only [List.mem_singleton] at hn
          subst hn; exact Or.inl rfl
        | some b =>
          rw [ht, hb] at hn
          simp only [List.mem_cons, List.not_mem_nil, or_false] at hn
          rcases hn with rfl | rfl
          · exact Or.inl rfl
          · exact Or.inr rfl
    · exact ih (i + 1) n hn

/-- Commit nodes of the full model are exactly the first sweep's commits. -/
theorem commitNodes_eq (C : LayoutConstants) (today : Date)
    (posts : List Post) :
    commitNodes (mapPostsToGraph C today posts) =
      commitsAux C (mkBranches C (publishedPosts posts)) 0
        (publishedPosts posts) := by
  unfold commitNodes mapPostsToGraph
  simp only [List.filter_append]
  rw [buildMain_filter_commit]
  have h2 : (sepPass C 0 none (publishedPosts posts)).filter
      GraphNode.isCommit = [] := by
    rw [List.filter_eq_nil]
    intro n hn
    simp [not_commit_of_separator (sepPass_all_separator C 0 none _ n hn)]
  have h3 : (todayNodes C today (publishedPosts posts)).filter
      GraphNode.isCommit = [] := by
    rw [List.filter_eq_nil]
    intro n hn
    simp [not_commit_of_today (todayNodes_all_today C today _ n hn)]
  rw [h2, h3]
  simp

/-- Merge nodes of the full model are exactly the first sweep's merges. -/
theorem mergeNodes_eq (C : LayoutConstants) (today : Date)
    (posts : List Post) :
    mergeNodes (mapPostsToGraph C today posts) =
      mergesAux C (mkBranches C (publishedPosts posts)) 0
        (publishedPosts posts) := by
  unfold mergeNodes mapPostsToGraph
  simp only [List.filter_append]
  rw [buildMain_filter_merge]
  have h2 : (sepPass C 0 none (publishedPosts posts)).filter
      GraphNode.isMerge = [] := by
    rw [List.filter_eq_nil]
    intro n hn
    simp [not_merge_of_separator (sepPass_all_separator C 0 none _ n hn)]
  have h3 : (todayNodes C today (publishedPosts posts)).filter
      GraphNode.isMerge = [] := by
    rw [List.filter_eq_nil]
    intro n hn
    simp [not_merge_of_today (todayNodes_all_today C today _ n hn)]
  rw [h2, h3]
  simp

/-- Separator nodes of the full model are exactly the separator sweep. -/
theorem sepNodes_eq (C : LayoutConstants) (today : Date)
    (posts : List Post) :
    sepNodes (mapPostsToGraph C today posts) =
      sepPass C 0 none (publishedPosts posts) := by
  unfold sepNodes mapPostsToGraph
  simp only [List.filter_append]
  have h1 : ((buildMain C (mkBranches C (publishedPosts posts)) 0
      (publishedPosts posts)).1.filter GraphNode.isSeparator) = [] := by
    rw [List.filter_eq_nil]
    intro n hn
    rcases buildMain_kinds C _ 0 _ n hn with h | h
    · cases n <;> simp_all [GraphNode.isCommit, GraphNode.isSeparator]
    · cases n <;> simp_all [GraphNode.isMerge, GraphNode.isSeparator]
  have h2 : (sepPass C 0 none (publishedPosts posts)).filter
      GraphNode.isSeparator = sepPass C 0 none (publishedPosts posts) := by
    rw [List.filter_eq_self]
    exact sepPass_all_separator C 0 none _
  have h3 : (todayNodes C today (publishedPosts posts)).filter
      GraphNode.isSeparator = [] := by
    rw [List.filter_eq_nil]
    intro n hn
    have := todayNodes_all_today C today _ n hn
    cases n <;> simp_all [GraphNode.isToday, GraphNode.isSeparator]
  rw [h1, h2, h3]
  simp

/-- Today markers of the full model are exactly the today sweep. -/
theorem todayMarks_eq (C : LayoutConstants) (today : Date)
    (posts : List Post) :
    todayMarks (mapPostsToGraph C today posts) =
      todayNodes C today (publishedPosts posts) := by
  unfold todayMarks mapPostsToGraph
  simp only [List.filter_append]
  have h1 : ((buildMain C (mkBranches C (publishedPosts posts)) 0
      (publishedPosts posts)).1.filter GraphNode.isToday) = [] := by
    rw [List.filter_eq_nil]
    intro n hn
    rcases buildMain_kinds C _ 0 _ n hn with h | h
    · cases n <;> simp_all [GraphNode.isCommit, GraphNode.isToday]
    · cases n <;> simp_all [GraphNode.isMerge, GraphNode.isToday]
  have h2 : (sepPass C 0 none (publishedPosts posts)).filter
      GraphNode.isToday = [] := by
    rw [List.filter_eq_nil]
    intro n hn
    have := sepPass_all_separator C 0 none _ n hn
    cases n <;> simp_all [GraphNode.isToday, GraphNode.isSeparator]
  have h3 : (todayNodes C today (publishedPosts posts)).filter
      GraphNode.isToday = todayNodes C today (publishedPosts posts) := by
    rw [List.filter_eq_self]
    exact todayNodes_all_today C today _
  rw [h1, h2, h3]
  simp

/-- Names of the tag branches are the sorted tags themselves. -/
theorem tagBranches_names (C : LayoutConstants) (N : Nat) :
    ∀ (i : Nat) (st : List String),
      (tagBranches C N i st).map Branch.name = st := by
  intro i st
  induction st generalizing i with
  | nil => rfl
  | cons t ts ih => simp [tagBranches, ih]

/-- A nonempty raw primary tag is the truthy primary tag. -/
theorem truthyTag_of_raw {p : Post} {t : String}
    (h : primaryRawTag p = some t) (hne : t ≠ "") :
    truthyTag p = some t := by
  unfold primaryRawTag at h
  unfold truthyTag
  rw [h]
  simp [hne]

/-! ## Commit/merge pairing lemmas -/

/-- Branch of a tagged-route commit node. -/
theorem commitNodeOf_branch_of_tagged {C : LayoutConstants}
    {bs : List Branch} {i : Nat} {p : Post}
    (hr : routeTagged bs p = true) :
    (commitNodeOf C bs i p).nodeBranch = branchIdOf p := by
  unfold routeTagged at hr
  simp only [Bool.and_eq_true, Option.isSome_iff_exists] at hr
  obtain ⟨⟨t, ht⟩, b, hb⟩ := hr
  unfold commitNodeOf
  rw [ht, hb]
  rfl

/-- Branch of a main-route commit node. -/
theorem commitNodeOf_branch_of_main {C : LayoutConstants}
    {bs : List Branch} {i : Nat} {p : Post}
    (hr : routeTagged bs p = false) :
    (commitNodeOf C bs i p).nodeBranch = "main" := by
  unfold commitNodeOf
  cases ht : truthyTag p with
  | none => rfl
  | some t =>
    cases hb : branchLookup bs (branchIdOf p) with
    | none => rfl
    | some b =>
      exfalso
      unfold routeTagged at hr
      rw [ht, hb] at hr
      simp at hr

/-- Membership characterization of the commit sub-sequence. -/
theorem mem_commitsAux (C : LayoutConstants) (bs : List Branch) :
    ∀ (i : Nat) (ps : List Post) (n : GraphNode), n ∈ commitsAux C bs i ps →
      ∃ j, ∃ h : j < ps.length,
        n = commitNodeOf C bs (i + j) (ps.get ⟨j, h⟩) := by
  intro i ps
  induction ps generalizing i with
  | nil => intro n hn; simp [commitsAux] at hn
  | cons p ps ih =>
    intro n hn
    simp only [commitsAux, List.mem_cons] at hn
    rcases hn with rfl | hn
    · exact ⟨0, by simp, by simp⟩
    · obtain ⟨j, hj, he⟩ := ih (i + 1) n hn
      refine ⟨j + 1, by simpa using Nat.succ_lt_succ hj, ?_⟩
      have harith : i + 1 + j = i + (j + 1) := by omega
      rw [← harith]
      exact he

/-- Commits with non-main branch count the tagged-route records. -/
theorem commitsAux_filter_branch (C : LayoutConstants) (bs : List Branch) :
    ∀ (i : Nat) (ps : List Post),
      (∀ p ∈ ps, routeTagged bs p = true → branchIdOf p ≠ "main") →
        ((commitsAux C bs i ps).filter
            (fun c => c.nodeBranch ≠ "main")).length =
          (ps.filter (routeTagged bs)).length := by
  intro i ps
  induction ps generalizing i with
  | nil => intro h; rfl
  | cons p ps ih =>
    intro h
    have hrest := ih (i + 1) (fun q hq => h q (List.mem_cons_of_mem _ hq))
    simp only [commitsAux]
    cases hr : routeTagged bs p with
    | true =>
      have hb : (commitNodeOf C bs i p).nodeBranch = branchIdOf p :=
        commitNodeOf_branch_of_tagged hr
      have hne : branchIdOf p ≠ "main" := h p (List.mem_cons_self _ _) hr
      have hpred : (decide ((commitNodeOf C bs i p).nodeBranch ≠ "main")) =
          true := by simp [hb, hne]
      rw [List.filter_cons, List.filter_cons, if_pos hpred, if_pos hr]
      simp only [List.length_cons]
      rw [hrest]
    | false =>
      have hb : (commitNodeOf C bs i p).nodeBranch = "main" :=
        commitNodeOf_branch_of_main hr
      have hpred : (decide ((commitNodeOf C bs i p).nodeBranch ≠ "main")) =
          false := by simp [hb]
      rw [List.filter_cons, List.filter_cons, if_neg (by simp [hpred]),
        if_neg (by simp [hr])]
      exact hrest

/-- Counting merges that share a given row and slug (default constants):
there is exactly one for the record at that row when it took the tagged
route and carries that slug, none otherwise. -/
theorem mergesAux_filter_count (bs : List Branch) :
    ∀ (i : Nat) (ps : List Post) (j : Nat) (hj : j < ps.length)
      (s : String),
      ((mergesAux LAYOUT_CONSTANTS bs i ps).filter (fun m =>
          m.nodeY = rowY LAYOUT_CONSTANTS (i + j) ∧
            m.nodeSlug = s)).length =
        if routeTagged bs (ps.get ⟨j, hj⟩) = true ∧
            (ps.get ⟨j, hj⟩).slug = s then 1 else 0 := by
  intro i ps
  induction ps generalizing i with
  | nil => intro j hj; exact absurd hj (by simp)
  | cons p ps ih =>
    intro j hj s
    simp only [mergesAux, List.filter_append, List.length_append]
    cases j with
    | zero =>
      have htail : ((mergesAux LAYOUT_CONSTANTS bs (i + 1) ps).filter
          (fun m => m.nodeY = rowY LAYOUT_CONSTANTS (i + 0) ∧
            m.nodeSlug = s)).length = 0 := by
        rw [List.length_eq_zero, List.filter_eq_nil]
        intro m hm
        obtain ⟨j', hj', hm', _⟩ :=
          mem_mergesAux LAYOUT_CONSTANTS bs (i + 1) ps m hm
        subst hm'
        simp only [mergeNodeOf, GraphNode.nodeY, GraphNode.nodeSlug,
          decide_eq_true_eq, not_and]
        intro hy
        have := rowY_default_inj hy
        omega
      rw [htail]
      cases ht : truthyTag p with
      | none =>
        simp [routeTagged, ht, List.get]
      | some t =>
        cases hb : branchLookup bs (branchIdOf p) with
        | none => simp [routeTagged, ht, hb, List.get]
        | some b =>
          by_cases hs : p.slug = s
          · simp [routeTagged, ht, hb, hs, mergeNodeOf, GraphNode.nodeY,
              GraphNode.nodeSlug, List.get]
          · simp [routeTagged, ht, hb, hs, mergeNodeOf, GraphNode.nodeY,
              GraphNode.nodeSlug, List.get]
    | succ j =>
      have hj' : j < ps.length := by simpa using Nat.lt_of_succ_lt_succ hj
      have harith : i + 1 + j = i + (j + 1) := by omega
      have hhead : (((match truthyTag p,
          branchLookup bs (branchIdOf p) with
          | some _, some _ => [mergeNodeOf LAYOUT_CONSTANTS i p]
          | _, _ => []) : List GraphNode).filter (fun m =>
            m.nodeY = rowY LAYOUT_CONSTANTS (i + (j + 1)) ∧
              m.nodeSlug = s)).length = 0 := by
        cases ht : truthyTag p with
        | none => rfl
        | some t =>
          cases hb : branchLookup bs (branchIdOf p) with
          | none => rfl
          | some b =>
            rw [List.length_eq_zero, List.filter_eq_nil]
            intro m hm
            simp only [List.mem_singleton] at hm
            subst hm
            simp only [mergeNodeOf, GraphNode.nodeY, GraphNode.nodeSlug,
              decide_eq_true_eq, not_and]
            intro hy
            have := rowY_default_inj hy
            omega
      rw [hhead]
      have := ih (i + 1) j hj' s
      rw [harith] at this
      rw [this]
      simp [List.get]

/-- Each tagged-route record contributes its commit node. -/
theorem commitNodeOf_mem_commitsAux (C : LayoutConstants)
    (bs : List Branch) :
    ∀ (i : Nat) (ps : List Post) (j : Nat) (h : j < ps.length),
      commitNodeOf C bs (i + j) (ps.get ⟨j, h⟩) ∈ commitsAux C bs i ps := by
  intro i ps
  induction ps generalizing i with
  | nil => intro j h; simp at h
  | cons p ps ih =>
    intro j h
    cases j with
    | zero => simp [commitsAux, List.get]
    | succ j =>
      have hj : j < ps.length := by simpa using Nat.lt_of_succ_lt_succ h
      have hmem := ih (i + 1) j hj
      have harith : i + 1 + j = i + (j + 1) := by omega
      rw [harith] at hmem
      exact List.mem_cons_of_mem _ hmem

/-- Membership characterization of the first sweep's edges. -/
theorem buildMain_edges_mem (C : LayoutConstants) (bs : List Branch) :
    ∀ (i : Nat) (ps : List Post) (e : Edge), e ∈ (buildMain C bs i ps).2 →
      ∃ j, ∃ h : j < ps.length,
        routeTagged bs (ps.get ⟨j, h⟩) = true ∧
          e = ⟨"edge-" ++ commitIdOf (ps.get ⟨j, h⟩) ++ "-" ++
              mergeIdOf (ps.get ⟨j, h⟩),
            commitIdOf (ps.get ⟨j, h⟩), mergeIdOf (ps.get ⟨j, h⟩),
            "merge-connector"⟩ := by
  intro i ps
  induction ps generalizing i with
  | nil => intro e he; simp [buildMain] at he
  | cons p ps ih =>
    intro e he
    simp only [buildMain, List.mem_append] at he
    rcases he with he | he
    · unfold postEdges at he
      cases ht : truthyTag p with
      | none => rw [ht] at he; simp at he
      | some t =>
        cases hb : branchLookup bs (branchIdOf p) with
        | none => rw [ht, hb] at he; simp at he
        | some b =>
          rw [ht, hb] at he
          simp only [List.mem_singleton] at he
          refine ⟨0, by simp, ?_, by simpa using he⟩
          simp [routeTagged, ht, hb, List.get]
    · obtain ⟨j, hj, hr, he2⟩ := ih (i + 1) e he
      exact ⟨j + 1, by simpa using Nat.succ_lt_succ hj, hr, he2⟩

/-- Target ids of the first sweep's edges: one merge id per tagged-route
record. -/
theorem buildMain_edges_toIds (C : LayoutConstants) (bs : List Branch) :
    ∀ (i : Nat) (ps : List Post),
      ((buildMain C bs i ps).2.map Edge.toId) =
        (ps.filter (routeTagged bs)).map mergeIdOf := by
  intro i ps
  induction ps generalizing i with
  | nil => rfl
  | cons p ps ih =>
    simp only [buildMain, List.map_append, ih, List.filter_cons]
    cases ht : truthyTag p with
    | none =>
      have hr : routeTagged bs p = false := by simp [routeTagged, ht]
      rw [if_neg (by simp [hr])]
      simp [postEdges, ht]
    | some t =>
      cases hb : branchLookup bs (branchIdOf p) with
      | none =>
        have hr : routeTagged bs p = false := by simp [routeTagged, ht, hb]
        rw [if_neg (by simp [hr])]
        simp [postEdges, ht, hb]
      | some b =>
        have hr : routeTagged bs p = true := by simp [routeTagged, ht, hb]
        rw [if_pos hr]
        simp [postEdges, ht, hb, mergeIdOf]

/-- In a list of edges with distinct target ids, any id is targeted at
most once. -/
theorem filter_toId_le_one {es : List Edge}
    (h : (es.map Edge.toId).Nodup) (x : String) :
    (es.filter (fun e => e.toId = x)).length ≤ 1 := by
  induction es with
  | nil => simp
  | cons e es ih =>
    simp only [List.map_cons, List.nodup_cons] at h
    obtain ⟨hne, hnod⟩ := h
    rw [List.filter_cons]
    by_cases he : e.toId = x
    · rw [if_pos (by simp [he])]
      have hz : (es.filter (fun e2 => e2.toId = x)).length = 0 := by
        rw [List.length_eq_zero, List.filter_eq_nil]
        intro e2 he2
        simp only [decide_eq_true_eq]
        intro hx
        exact hne (by rw [he, ← hx]; exact List.mem_map_of_mem _ he2)
      simp [hz]
    · rw [if_neg (by simp [he])]
      exact ih hnod

/-! ## Node-id uniqueness lemmas -/

/-- Ids of the first sweep in per-record form. -/
theorem buildMain_map_id (C : LayoutConstants) (bs : List Branch) :
    ∀ (i : Nat) (ps : List Post),
      (buildMain C bs i ps).1.map GraphNode.nodeId = idsAux bs ps := by
  intro i ps
  induction ps generalizing i with
  | nil => rfl
  | cons p ps ih =>
    simp only [buildMain, List.map_append, ih, idsAux]
    congr 1
    unfold postNodes
    cases ht : truthyTag p with
    | none =>
      have hr : routeTagged bs p = false := by simp [routeTagged, ht]
      rw [hr]
      simp [GraphNode.nodeId]
    | some t =>
      cases hb : branchLookup bs (branchIdOf p) with
      | none =>
        have hr : routeTagged bs p = false := by simp [routeTagged, ht, hb]
        rw [hr]
        simp [GraphNode.nodeId]
      | some b =>
        have hr : routeTagged bs p = true := by simp [routeTagged, ht, hb]
        rw [hr]
        simp [GraphNode.nodeId]

/-- Membership characterization of the first sweep's ids. -/
theorem mem_idsAux (bs : List Branch) :
    ∀ (ps : List Post) (s : String), s ∈ idsAux bs ps →
      (∃ q ∈ ps, s = commitIdOf q) ∨
        (∃ q ∈ ps.filter (routeTagged bs), s = mergeIdOf q) := by
  intro ps
  induction ps with
  | nil => intro s hs; simp [idsAux] at hs
  | cons p ps ih =>
    intro s hs
    simp only [idsAux, List.mem_append] at hs
    rcases hs with hs | hs
    · cases hr : routeTagged bs p with
      | true =>
        rw [hr] at hs
        rcases List.mem_cons.mp hs with rfl | hs2
        · exact Or.inl ⟨p, List.mem_cons_self _ _, rfl⟩
        · rcases List.mem_cons.mp hs2 with rfl | hs3
          · refine Or.inr ⟨p, ?_, rfl⟩
            rw [List.mem_filter]
            exact ⟨List.mem_cons_self _ _, hr⟩
          · exact absurd hs3 (List.not_mem_nil _)
      | false =>
        rw [hr] at hs
        rcases List.mem_cons.mp hs with rfl | hs2
        · exact Or.inl ⟨p, List.mem_cons_self _ _, rfl⟩
        · exact absurd hs2 (List.not_mem_nil _)
    · rcases ih s hs with ⟨q, hq, he⟩ | ⟨q, hq, he⟩
      · exact Or.inl ⟨q, List.mem_cons_of_mem _ hq, he⟩
      · refine Or.inr ⟨q, ?_, he⟩
        rw [List.mem_filter] at hq ⊢
        exact ⟨List.mem_cons_of_mem _ hq.1, hq.2⟩

/-- Commit-id shape of `commitIdOf`. -/
theorem commitIdOf_shape (p : Post) :
    commitIdOf p = "commit-" ++ branchIdOf p ++ "-" ++ p.slug := rfl

/-- Merge-id shape of `mergeIdOf`. -/
theorem mergeIdOf_shape (p : Post) : mergeIdOf p = "merge-" ++ p.slug := rfl

/-- The first sweep's ids are distinct when the commit ids and the tagged
records' slugs are. -/
theorem idsAux_nodup (bs : List Branch) :
    ∀ (ps : List Post), (ps.map commitIdOf).Nodup →
      ((ps.filter (routeTagged bs)).map Post.slug).Nodup →
        (idsAux bs ps).Nodup := by
  intro ps
  induction ps with
  | nil => intro _ _; simp [idsAux]
  | cons p ps ihn =>
    intro hc hs
    simp only [List.map_cons, List.nodup_cons] at hc
    obtain ⟨hcm, hcn⟩ := hc
    simp only [idsAux]
    have hnotc : commitIdOf p ∉ idsAux bs ps := by
      intro hmem
      rcases mem_idsAux bs ps _ hmem with ⟨q, hq, he⟩ | ⟨q, hq, he⟩
      · exact hcm (he ▸ List.mem_map_of_mem commitIdOf hq)
      · rw [commitIdOf_shape p, mergeIdOf_shape q] at he
        exact commitId_ne_mergeId _ _ _ he
    cases hr : routeTagged bs p with
    | true =>
      rw [List.filter_cons, if_pos hr] at hs
      simp only [List.map_cons, List.nodup_cons] at hs
      obtain ⟨hsm, hsn⟩ := hs
      have hnotm : mergeIdOf p ∉ idsAux bs ps := by
        intro hmem
        rcases mem_idsAux bs ps _ hmem with ⟨q, hq, he⟩ | ⟨q, hq, he⟩
        · rw [commitIdOf_shape q, mergeIdOf_shape p] at he
          exact commitId_ne_mergeId _ _ _ he.symm
        · rw [mergeIdOf_shape p, mergeIdOf_shape q] at he
          have := mergeId_inj he
          exact hsm (this ▸ List.mem_map_of_mem Post.slug hq)
      rw [if_pos rfl]
      refine List.nodup_cons.mpr ⟨?_, List.nodup_cons.mpr
        ⟨hnotm, ihn hcn hsn⟩⟩
      intro hmem
      rcases List.mem_cons.mp hmem with he | hmem2
      · rw [commitIdOf_shape p, mergeIdOf_shape p] at he
        exact commitId_ne_mergeId _ _ _ he
      · exact hnotc hmem2
    | false =>
      rw [List.filter_cons, if_neg (by simp [hr])] at hs
      rw [if_neg (by simp)]
      simp only [List.singleton_append, List.nodup_cons]
      exact ⟨hnotc, ihn hcn hs⟩

/-- Id of a year separator node. -/
theorem yearSepNode_id (C : LayoutConstants) (k yr : Nat) :
    (yearSepNode C k yr).nodeId = "separator-year-" ++ natStr yr := rfl

/-- Id of a month separator node. -/
theorem monthSepNode_id (C : LayoutConstants) (k yr mo : Nat) :
    (monthSepNode C k yr mo).nodeId =
      "separator-month-" ++ natStr yr ++ "-" ++ natStr mo := rfl

/-- Every node of the separator sweep is a year or month separator. -/
theorem sepPass_shape (C : LayoutConstants) :
    ∀ (i : Nat) (last : Option (Nat × Nat)) (ps : List Post)
      (n : GraphNode), n ∈ sepPass C i last ps →
        (∃ k yr, n = yearSepNode C k yr) ∨
          ∃ k yr mo, n = monthSepNode C k yr mo := by
  intro i last ps
  induction ps generalizing i last with
  | nil => intro n hn; simp [sepPass] at hn
  | cons p ps ih =>
    intro n hn
    simp only [sepPass, List.mem_append] at hn
    rcases hn with hn | hn
    · cases last with
      | none => simp at hn
      | some pr =>
        obtain ⟨ly, lm⟩ := pr
        simp only [List.mem_append] at hn
        rcases hn with hn | hn
        · by_cases hy : p.date.year ≠ ly
          · simp only [if_pos hy, List.mem_singleton] at hn
            exact Or.inl ⟨i, p.date.year, hn⟩
          · simp [if_neg hy] at hn
        · by_cases hm : p.date.month ≠ lm ∧ p.date.year = ly
          · simp only [if_pos hm, List.mem_singleton] at hn
            exact Or.inr ⟨i, p.date.year, p.date.month, hn⟩
          · simp [if_neg hm] at hn
    · exact ih (i + 1) _ n hn

/-- Shape and distinctness of the separator ids between adjacent records
of a newest-first (non-increasing date) sequence. -/
theorem adjSeps_shape_nodup (C : LayoutConstants) :
    ∀ (i : Nat) (prev : Post) (ps : List Post),
      List.Chain (fun a b => dateLE b.date a.date = true) prev ps →
        (∀ n ∈ adjSeps C i prev ps,
          (∃ k yr, yr < prev.date.year ∧ n = yearSepNode C k yr) ∨
            (∃ k yr mo,
              pairLT (yr, mo) (prev.date.year, prev.date.month) ∧
                n = monthSepNode C k yr mo)) ∧
          ((adjSeps C i prev ps).map GraphNode.nodeId).Nodup := by
  intro i prev ps
  induction ps generalizing i prev with
  | nil =>
    intro _
    exact ⟨by simp [adjSeps], by simp [adjSeps]⟩
  | cons p ps ih =>
    intro hch
    rw [List.chain_cons] at hch
    obtain ⟨hle, hch2⟩ := hch
    obtain ⟨ihShape, ihNodup⟩ := ih (i + 1) p hch2
    have hyle : p.date.year ≤ prev.date.year := year_le_of_dateLE hle
    have hple := pair_le_of_dateLE hle
    have wk : ∀ n ∈ adjSeps C (i + 1) p ps,
        (∃ k yr, yr < prev.date.year ∧ n = yearSepNode C k yr) ∨
          (∃ k yr mo,
            pairLT (yr, mo) (prev.date.year, prev.date.month) ∧
              n = monthSepNode C k yr mo) := by
      intro n hn
      rcases ihShape n hn with ⟨k, yr, hlt, he⟩ | ⟨k, yr, mo, hlt, he⟩
      · exact Or.inl ⟨k, yr, by omega, he⟩
      · refine Or.inr ⟨k, yr, mo, ?_, he⟩
        unfold pairLT at hlt ⊢
        simp only at hlt ⊢
        omega
    have hadj : adjSeps C i prev (p :: ps) =
        boundarySeps C i prev p ++ adjSeps C (i + 1) p ps := rfl
    rw [hadj]
    unfold boundarySeps
    by_cases hy : p.date.year ≠ prev.date.year
    · rw [if_pos hy]
      have hylt : p.date.year < prev.date.year := by omega
      constructor
      · intro n hn
        rcases List.mem_cons.mp hn with rfl | hn2
        · exact Or.inl ⟨i, p.date.year, hylt, rfl⟩
        · exact wk n hn2
      · refine List.nodup_cons.mpr ⟨?_, ihNodup⟩
        intro hmem
        obtain ⟨n, hn, hid⟩ := List.mem_map.mp hmem
        rcases ihShape n hn with ⟨k, yr, hlt, rfl⟩ | ⟨k, yr, mo, hlt, rfl⟩
        · rw [yearSepNode_id, yearSepNode_id] at hid
          have := yearId_inj hid
          omega
        · rw [monthSepNode_id, yearSepNode_id] at hid
          exact yearId_ne_monthId _ _ _ hid.symm
    · rw [if_neg hy]
      push_neg at hy
      by_cases hm : p.date.month ≠ prev.date.month
      · rw [if_pos hm]
        have hmlt : p.date.month < prev.date.month := by
          rcases hple with h | h <;> omega
        constructor
        · intro n hn
          rcases List.mem_cons.mp hn with rfl | hn2
          · refine Or.inr ⟨i, p.date.year, p.date.month, ?_, rfl⟩
            unfold pairLT
            simp only
            omega
          · exact wk n hn2
        · refine List.nodup_cons.mpr ⟨?_, ihNodup⟩
          intro hmem
          obtain ⟨n, hn, hid⟩ := List.mem_map.mp hmem
          rcases ihShape n hn with ⟨k, yr, hlt, rfl⟩ | ⟨k, yr, mo, hlt, rfl⟩
          · rw [yearSepNode_id, monthSepNode_id] at hid
            exact yearId_ne_monthId _ _ _ hid
          · rw [monthSepNode_id, monthSepNode_id] at hid
            have := monthId_inj hid
            unfold pairLT at hlt
            simp only at hlt
            omega
      · rw [if_neg hm]
        refine ⟨?_, by simpa using ihNodup⟩
        intro n hn
        simp only [List.nil_append] at hn
        exact wk n hn

/-- The separator sweep of a newest-first list has distinct node ids. -/
theorem sepPass_ids_nodup (C : LayoutConstants) (ps : List Post)
    (hs : List.Pairwise (fun a b => dateLE b.date a.date = true) ps) :
    ((sepPass C 0 none ps).map GraphNode.nodeId).Nodup := by
  rw [sepPass_eq_specSeps]
  cases ps with
  | nil => simp [specSeps]
  | cons p ps =>
    simp only [specSeps]
    have hch : List.Chain (fun a b => dateLE b.date a.date = true) p ps :=
      List.Pairwise.chain' hs
    exact (adjSeps_shape_nodup C 1 p ps hch).2

/-! ## Constant-independence lemmas -/

/-- Lookup success depends only on the branch id sequence. -/
theorem branchLookup_isSome_congr {bs bs' : List Branch} (s : String)
    (h : bs.map Branch.id = bs'.map Branch.id) :
    (branchLookup bs s).isSome = (branchLookup bs' s).isSome := by
  have h1 := branchLookup_isSome_iff s bs
  have h2 := branchLookup_isSome_iff s bs'
  have hiff : (∃ b ∈ bs, b.id = s) ↔ ∃ b ∈ bs', b.id = s := by
    constructor
    · rintro ⟨b, hb, hbs⟩
      have hm : s ∈ bs'.map Branch.id := by
        rw [← h]
        exact List.mem_map.mpr ⟨b, hb, hbs⟩
      obtain ⟨b', hb', hbs'⟩ := List.mem_map.mp hm
      exact ⟨b', hb', hbs'⟩
    · rintro ⟨b, hb, hbs⟩
      have hm : s ∈ bs.map Branch.id := by
        rw [h]
        exact List.mem_map.mpr ⟨b, hb, hbs⟩
      obtain ⟨b', hb', hbs'⟩ := List.mem_map.mp hm
      exact ⟨b', hb', hbs'⟩
  have hmain : ((branchLookup bs s).isSome = true) ↔
      ((branchLookup bs' s).isSome = true) := by
    rw [h1, h2]
    exact hiff
  cases hx : (branchLookup bs s).isSome <;>
    cases hy : (branchLookup bs' s).isSome
  · rfl
  · exact absurd (hmain.mpr hy) (by simp [hx])
  · exact absurd (hmain.mp hx) (by simp [hy])
  · rfl

/-- The first sweep's node ids and edges depend only on the branch id
sequence, not on the layout constants. -/
theorem buildMain_congr (C C' : LayoutConstants) {bs bs' : List Branch}
    (h : bs.map Branch.id = bs'.map Branch.id) :
    ∀ (i : Nat) (ps : List Post),
      ((buildMain C bs i ps).1.map GraphNode.nodeId =
          (buildMain C' bs' i ps).1.map GraphNode.nodeId) ∧
        (buildMain C bs i ps).2 = (buildMain C' bs' i ps).2 := by
  intro i ps
  induction ps generalizing i with
  | nil => exact ⟨rfl, rfl⟩
  | cons p ps ih =>
    obtain ⟨ih1, ih2⟩ := ih (i + 1)
    have hsome := branchLookup_isSome_congr (branchIdOf p) h
    have hcase : (∃ b b', branchLookup bs (branchIdOf p) = some b ∧
        branchLookup bs' (branchIdOf p) = some b') ∨
        (branchLookup bs (branchIdOf p) = none ∧
          branchLookup bs' (branchIdOf p) = none) := by
      cases hb : branchLookup bs (branchIdOf p) with
      | none =>
        cases hb' : branchLookup bs' (branchIdOf p) with
        | none => exact Or.inr ⟨rfl, rfl⟩
        | some b' => rw [hb, hb'] at hsome; simp at hsome
      | some b =>
        cases hb' : branchLookup bs' (branchIdOf p) with
        | none => rw [hb, hb'] at hsome; simp at hsome
        | some b' => exact Or.inl ⟨b, b', rfl, rfl⟩
    constructor
    · simp only [buildMain, List.map_append, ih1]
      congr 1
      unfold postNodes
      cases ht : truthyTag p with
      | none => simp [GraphNode.nodeId]
      | some t =>
        rcases hcase with ⟨b, b', hb, hb'⟩ | ⟨hb, hb'⟩ <;>
          simp [hb, hb', GraphNode.nodeId]
    · simp only [buildMain, ih2]
      congr 1
      unfold postEdges
      cases ht : truthyTag p with
      | none => simp
      | some t =>
        rcases hcase with ⟨b, b', hb, hb'⟩ | ⟨hb, hb'⟩ <;> simp [hb, hb']

/-- Separator node ids and occurrence depend only on the record dates. -/
theorem sepPass_map_id_congr (C C' : LayoutConstants) :
    ∀ (i : Nat) (last : Option (Nat × Nat)) (ps : List Post),
      (sepPass C i last ps).map GraphNode.nodeId =
        (sepPass C' i last ps).map GraphNode.nodeId := by
  intro i last ps
  induction ps generalizing i last with
  | nil => rfl
  | cons p ps ih =>
    simp only [sepPass, List.map_append, ih]
    congr 1
    cases last with
    | none => rfl
    | some pr =>
      obtain ⟨ly, lm⟩ := pr
      simp only [List.map_append]
      congr 1
      · split_ifs <;> simp [yearSepNode, GraphNode.nodeId]
      · split_ifs <;> simp [monthSepNode, GraphNode.nodeId]

/-- Branch ids of the registry, independent of the constants. -/
theorem mkBranches_map_id (C : LayoutConstants) (ps : List Post) :
    (mkBranches C ps).map Branch.id =
      "main" :: (sortedTagsOf ps).map slug := by
  simp [mkBranches, mainBranch, tagBranches_ids]

/-! ## Claim theorems -/

/-- C9: changing the layout constants (provided the top padding stays
strictly positive) changes only coordinate values: node ids, edges, branch
ids and the node/edge counts are identical to the output under the default
constants. -/
theorem C9_constants_structure (C : LayoutConstants) (today : Date)
    (posts : List Post) (hPT : 0 < C.PADDING_TOP) :
    ((mapPostsToGraph C today posts).nodes.map GraphNode.nodeId =
        (mapPostsToGraph LAYOUT_CONSTANTS today posts).nodes.map
          GraphNode.nodeId) ∧
      (mapPostsToGraph C today posts).edges =
        (mapPostsToGraph LAYOUT_CONSTANTS today posts).edges ∧
      (mapPostsToGraph C today posts).branches.map Branch.id =
        (mapPostsToGraph LAYOUT_CONSTANTS today posts).branches.map
          Branch.id ∧
      (mapPostsToGraph C today posts).nodes.length =
        (mapPostsToGraph LAYOUT_CONSTANTS today posts).nodes.length ∧
      (mapPostsToGraph C today posts).edges.length =
        (mapPostsToGraph LAYOUT_CONSTANTS today posts).edges.length := by
  have hb : (mkBranches C (publishedPosts posts)).map Branch.id =
      (mkBranches LAYOUT_CONSTANTS (publishedPosts posts)).map
        Branch.id := by
    rw [mkBranches_map_id, mkBranches_map_id]
  have hbm := buildMain_congr C LAYOUT_CONSTANTS hb 0 (publishedPosts posts)
  have hsep := sepPass_map_id_congr C LAYOUT_CONSTANTS 0 none
    (publishedPosts posts)
  have htod : (todayNodes C today (publishedPosts posts)).map
      GraphNode.nodeId =
      (todayNodes LAYOUT_CONSTANTS today (publishedPosts posts)).map
        GraphNode.nodeId := by
    rw [todayNodes_eq, todayNodes_eq, if_pos hPT,
      if_pos (show (0 : Int) < LAYOUT_CONSTANTS.PADDING_TOP by decide)]
    rfl
  have hnodes : (mapPostsToGraph C today posts).nodes.map
      GraphNode.nodeId =
      (mapPostsToGraph LAYOUT_CONSTANTS today posts).nodes.map
        GraphNode.nodeId := by
    show ((buildMain C (mkBranches C (publishedPosts posts)) 0
        (publishedPosts posts)).1 ++ sepPass C 0 none (publishedPosts posts)
        ++ todayNodes C today (publishedPosts posts)).map GraphNode.nodeId =
      ((buildMain LAYOUT_CONSTANTS
        (mkBranches LAYOUT_CONSTANTS (publishedPosts posts)) 0
        (publishedPosts posts)).1 ++
        sepPass LAYOUT_CONSTANTS 0 none (publishedPosts posts) ++
        todayNodes LAYOUT_CONSTANTS today (publishedPosts posts)).map
          GraphNode.nodeId
    simp only [List.map_append]
    rw [hbm.1, hsep, htod]
  have hedges : (mapPostsToGraph C today posts).edges =
      (mapPostsToGraph LAYOUT_CONSTANTS today posts).edges := hbm.2
  refine ⟨hnodes, hedges, hb, ?_, ?_⟩
  · have h2 := congrArg List.length hnodes
    simpa using h2
  · rw [hedges]

/-- Counterexample to C9 as stated: changing `PADDING_TOP` from 24 to 0 is
not purely coordinate-level — on the empty input it suppresses the today
marker, changing the node count. -/
theorem C9_counterexample :
    (mapPostsToGraph ⟨48, 0, 24, 150, 80, 100⟩ ⟨2026, 9, 11⟩
        []).nodes.length ≠
      (mapPostsToGraph LAYOUT_CONSTANTS ⟨2026, 9, 11⟩ []).nodes.length := by
  decide

/-- Witness for C9 at a concrete constants record and input. -/
theorem C9_constants_structure_witness :
    (0 : Int) < (⟨10, 5, 5, 100, 20, 50⟩ : LayoutConstants).PADDING_TOP ∧
      (mapPostsToGraph ⟨10, 5, 5, 100, 20, 50⟩ ⟨2026, 9, 11⟩
          [⟨"p", "t", none, ⟨2024, 0, 1⟩, ["a"], false⟩]).nodes.map
        GraphNode.nodeId =
      (mapPostsToGraph LAYOUT_CONSTANTS ⟨2026, 9, 11⟩
          [⟨"p", "t", none, ⟨2024, 0, 1⟩, ["a"], false⟩]).nodes.map
        GraphNode.nodeId :=
  ⟨by decide,
    (C9_constants_structure ⟨10, 5, 5, 100, 20, 50⟩ ⟨2026, 9, 11⟩
      [⟨"p", "t", none, ⟨2024, 0, 1⟩, ["a"], false⟩] (by decide)).1⟩

/-- C2 (amended): a Merge node is paired with a Commit exactly when the
record took the tagged route; provided no published record's truthy
primary tag slugifies to the reserved `"main"` id, this is equivalent to
the claim: the Merge count equals the count of Commits on non-main
branches, every such Commit has exactly one Merge sharing its `y` and
slug, and no main-branch Commit has one. -/
theorem C2_merge_pairing (today : Date) (posts : List Post)
    (hmain : ∀ p ∈ publishedPosts posts, tagged p = true →
      branchIdOf p ≠ "main") :
    ((mergeNodes (mapPostsToGraph LAYOUT_CONSTANTS today posts)).length =
        ((commitNodes (mapPostsToGraph LAYOUT_CONSTANTS today
          posts)).filter (fun c => c.nodeBranch ≠ "main")).length) ∧
      (∀ c ∈ commitNodes (mapPostsToGraph LAYOUT_CONSTANTS today posts),
        c.nodeBranch ≠ "main" →
          ((mergeNodes (mapPostsToGraph LAYOUT_CONSTANTS today
            posts)).filter (fun m => m.nodeY = c.nodeY ∧
              m.nodeSlug = c.nodeSlug)).length = 1) ∧
      (∀ c ∈ commitNodes (mapPostsToGraph LAYOUT_CONSTANTS today posts),
        c.nodeBranch = "main" →
          ((mergeNodes (mapPostsToGraph LAYOUT_CONSTANTS today
            posts)).filter (fun m => m.nodeY = c.nodeY ∧
              m.nodeSlug = c.nodeSlug)).length = 0) := by
  have hCn := commitNodes_eq LAYOUT_CONSTANTS today posts
  have hMn := mergeNodes_eq LAYOUT_CONSTANTS today posts
  have hroute : ∀ p ∈ publishedPosts posts,
      routeTagged (mkBranches LAYOUT_CONSTANTS (publishedPosts posts)) p =
          true →
        branchIdOf p ≠ "main" := by
    intro p hp hr
    refine hmain p hp ?_
    rw [← routeTagged_iff LAYOUT_CONSTANTS hp]
    exact hr
  refine ⟨?_, ?_, ?_⟩
  · rw [hMn, hCn, mergesAux_length,
      commitsAux_filter_branch LAYOUT_CONSTANTS _ 0 _ hroute]
  · intro c hc hcb
    rw [hCn] at hc
    obtain ⟨j, hj, rfl⟩ := mem_commitsAux LAYOUT_CONSTANTS _ 0 _ c hc
    have hr : routeTagged
        (mkBranches LAYOUT_CONSTANTS (publishedPosts posts))
        ((publishedPosts posts).get ⟨j, hj⟩) = true := by
      cases hr2 : routeTagged
          (mkBranches LAYOUT_CONSTANTS (publishedPosts posts))
          ((publishedPosts posts).get ⟨j, hj⟩) with
      | false => exact absurd (commitNodeOf_branch_of_main hr2) hcb
      | true => rfl
    rw [hMn]
    simp only [commitNodeOf_y, commitNodeOf_slug]
    rw [mergesAux_filter_count _ 0 _ j hj]
    simp only [List.get_eq_getElem] at hr
    simp [hr]
  · intro c hc hcb
    rw [hCn] at hc
    obtain ⟨j, hj, rfl⟩ := mem_commitsAux LAYOUT_CONSTANTS _ 0 _ c hc
    rw [hMn]
    simp only [commitNodeOf_y, commitNodeOf_slug]
    rw [mergesAux_filter_count _ 0 _ j hj]
    cases hr2 : routeTagged
        (mkBranches LAYOUT_CONSTANTS (publishedPosts posts))
        ((publishedPosts posts).get ⟨j, hj⟩) with
    | false =>
      have hr3 := hr2
      simp only [List.get_eq_getElem] at hr3
      simp [hr3]
    | true =>
      exfalso
      have hb := commitNodeOf_branch_of_tagged
        (C := LAYOUT_CONSTANTS)
        (i := 0 + j) hr2
      rw [hcb] at hb
      exact hroute _ (List.get_mem _ _ _) hr2 hb.symm

/-- Counterexample to C2 as stated: a record whose primary tag slugifies to
`"main"` yields a Commit on branch `"main"` that nevertheless has a paired
Merge node sharing its `y` and slug. -/
theorem C2_counterexample :
    ∃ c ∈ commitNodes (mapPostsToGraph LAYOUT_CONSTANTS ⟨2026, 9, 11⟩
        [⟨"p", "t", none, ⟨2024, 0, 1⟩, ["Main"], false⟩]),
      c.nodeBranch = "main" ∧
        ((mergeNodes (mapPostsToGraph LAYOUT_CONSTANTS ⟨2026, 9, 11⟩
            [⟨"p", "t", none, ⟨2024, 0, 1⟩, ["Main"], false⟩])).filter
          (fun m => m.nodeY = c.nodeY ∧ m.nodeSlug = c.nodeSlug)).length =
          1 := by
  decide

/-- Witness for C2 at a concrete input with an ordinary tag. -/
theorem C2_merge_pairing_witness :
    (∀ p ∈ publishedPosts [⟨"p", "t", none, ⟨2024, 0, 1⟩, ["a"], false⟩],
        tagged p = true → branchIdOf p ≠ "main") ∧
      (mergeNodes (mapPostsToGraph LAYOUT_CONSTANTS ⟨2026, 9, 11⟩
          [⟨"p", "t", none, ⟨2024, 0, 1⟩, ["a"], false⟩])).length =
        ((commitNodes (mapPostsToGraph LAYOUT_CONSTANTS ⟨2026, 9, 11⟩
          [⟨"p", "t", none, ⟨2024, 0, 1⟩, ["a"], false⟩])).filter
            (fun c => c.nodeBranch ≠ "main")).length :=
  ⟨by decide,
    (C2_merge_pairing ⟨2026, 9, 11⟩
      [⟨"p", "t", none, ⟨2024, 0, 1⟩, ["a"], false⟩] (by decide)).1⟩

/-- C8 (amended): provided no published record's truthy primary tag
slugifies to the reserved id, exactly one branch has id `"main"`. -/
theorem C8_unique_main_branch (today : Date) (posts : List Post)
    (hmain : ∀ p ∈ publishedPosts posts, tagged p = true →
      branchIdOf p ≠ "main") :
    ((mapPostsToGraph LAYOUT_CONSTANTS today posts).branches.filter
      (fun b => b.id = "main")).length = 1 := by
  have hbr : (mapPostsToGraph LAYOUT_CONSTANTS today posts).branches =
      mainBranch LAYOUT_CONSTANTS :: tagBranches LAYOUT_CONSTANTS
        (sortedTagsOf (publishedPosts posts)).length 0
        (sortedTagsOf (publishedPosts posts)) := rfl
  rw [hbr, List.filter_cons,
    if_pos (show (decide ((mainBranch LAYOUT_CONSTANTS).id = "main")) =
      true by decide)]
  have htail : (tagBranches LAYOUT_CONSTANTS
      (sortedTagsOf (publishedPosts posts)).length 0
      (sortedTagsOf (publishedPosts posts))).filter
        (fun b => b.id = "main") = [] := by
    rw [List.filter_eq_nil]
    intro b hb
    have hmem : b.id ∈ (tagBranches LAYOUT_CONSTANTS
        (sortedTagsOf (publishedPosts posts)).length 0
        (sortedTagsOf (publishedPosts posts))).map Branch.id :=
      List.mem_map_of_mem _ hb
    rw [tagBranches_ids] at hmem
    obtain ⟨t, ht, hts⟩ := List.mem_map.mp hmem
    obtain ⟨p, hp, hraw⟩ := (mem_sortedTagsOf t _).mp ht
    simp only [decide_eq_true_eq]
    intro hbid
    by_cases hte : t = ""
    · subst hte
      rw [← hts] at hbid
      exact absurd hbid (by decide)
    · have htr : truthyTag p = some t := truthyTag_of_raw hraw hte
      have htag : tagged p = true := by simp [tagged, htr]
      have hbid2 : branchIdOf p = "main" := by
        rw [branchIdOf_of_truthyTag htr, hts]
        exact hbid
      exact hmain p hp htag hbid2
  rw [htail]
  rfl

/-- Counterexample to C8 as stated: the tag `"Main"` slugifies to `"main"`
and yields a second branch with the reserved id. -/
theorem C8_counterexample :
    ((mapPostsToGraph LAYOUT_CONSTANTS ⟨2026, 9, 11⟩
        [⟨"p", "t", none, ⟨2024, 0, 1⟩, ["Main"], false⟩]).branches.filter
      (fun b => b.id = "main")).length ≠ 1 := by
  decide

/-- C7 (amended): unconditionally, every edge is a merge-connector from a
Commit node present in `nodes` to that Commit's paired Merge node (same
`y` and slug) present in `nodes`; provided the slugs of tagged published
records are pairwise distinct, no node has more than one incoming edge. -/
theorem C7_edges (today : Date) (posts : List Post) :
    (∀ e ∈ (mapPostsToGraph LAYOUT_CONSTANTS today posts).edges,
      e.kind = "merge-connector" ∧
        ∃ c ∈ (mapPostsToGraph LAYOUT_CONSTANTS today posts).nodes,
          c.isCommit = true ∧ c.nodeId = e.fromId ∧
            ∃ m ∈ (mapPostsToGraph LAYOUT_CONSTANTS today posts).nodes,
              m.isMerge = true ∧ m.nodeId = e.toId ∧
                m.nodeY = c.nodeY ∧ m.nodeSlug = c.nodeSlug) ∧
      ((((publishedPosts posts).filter tagged).map Post.slug).Nodup →
        ∀ n ∈ (mapPostsToGraph LAYOUT_CONSTANTS today posts).nodes,
          ((mapPostsToGraph LAYOUT_CONSTANTS today posts).edges.filter
            (fun e => e.toId = n.nodeId)).length ≤ 1) := by
  have hE : (mapPostsToGraph LAYOUT_CONSTANTS today posts).edges =
      (buildMain LAYOUT_CONSTANTS
        (mkBranches LAYOUT_CONSTANTS (publishedPosts posts)) 0
        (publishedPosts posts)).2 := rfl
  have hCn := commitNodes_eq LAYOUT_CONSTANTS today posts
  have hMn := mergeNodes_eq LAYOUT_CONSTANTS today posts
  constructor
  · intro e he
    rw [hE] at he
    obtain ⟨j, hj, hr, rfl⟩ := buildMain_edges_mem LAYOUT_CONSTANTS _ 0 _
      e he
    refine ⟨rfl, commitNodeOf LAYOUT_CONSTANTS
      (mkBranches LAYOUT_CONSTANTS (publishedPosts posts)) (0 + j)
      ((publishedPosts posts).get ⟨j, hj⟩), ?_, commitNodeOf_isCommit _ _ _
        _, commitNodeOf_id _ _ _ _, mergeNodeOf LAYOUT_CONSTANTS (0 + j)
      ((publishedPosts posts).get ⟨j, hj⟩), ?_, rfl, rfl, ?_, ?_⟩
    · refine List.mem_of_mem_filter (p := GraphNode.isCommit) ?_
      show _ ∈ commitNodes (mapPostsToGraph LAYOUT_CONSTANTS today posts)
      rw [hCn]
      exact commitNodeOf_mem_commitsAux LAYOUT_CONSTANTS _ 0 _ j hj
    · refine List.mem_of_mem_filter (p := GraphNode.isMerge) ?_
      show _ ∈ mergeNodes (mapPostsToGraph LAYOUT_CONSTANTS today posts)
      rw [hMn]
      exact mergeNodeOf_mem_mergesAux LAYOUT_CONSTANTS _ 0 _ j hj hr
    · rw [commitNodeOf_y]
      rfl
    · rw [commitNodeOf_slug]
      rfl
  · intro hs n hn
    have htoIds : ((mapPostsToGraph LAYOUT_CONSTANTS today posts).edges.map
        Edge.toId).Nodup := by
      rw [hE, buildMain_edges_toIds]
      have hfe : (publishedPosts posts).filter
          (routeTagged (mkBranches LAYOUT_CONSTANTS
            (publishedPosts posts))) =
          (publishedPosts posts).filter tagged := by
        apply List.filter_congr
        intro p hp
        rw [routeTagged_iff LAYOUT_CONSTANTS hp]
      rw [hfe]
      have hcomp : ((publishedPosts posts).filter tagged).map mergeIdOf =
          (((publishedPosts posts).filter tagged).map Post.slug).map
            (fun s => "merge-" ++ s) := by
        rw [List.map_map]
        rfl
      rw [hcomp]
      exact hs.map (fun a b h => mergeId_inj h)
    exact filter_toId_le_one htoIds n.nodeId

/-- Counterexample to C7 as stated: two tagged records with the same slug
produce two connector edges into the same merge id, so a node has two
incoming merge-connector edges. -/
theorem C7_counterexample :
    ∃ n ∈ (mapPostsToGraph LAYOUT_CONSTANTS ⟨2026, 9, 11⟩
        [⟨"p", "t", none, ⟨2024, 0, 2⟩, ["a"], false⟩,
          ⟨"p", "u", none, ⟨2024, 0, 1⟩, ["a"], false⟩]).nodes,
      1 < ((mapPostsToGraph LAYOUT_CONSTANTS ⟨2026, 9, 11⟩
          [⟨"p", "t", none, ⟨2024, 0, 2⟩, ["a"], false⟩,
            ⟨"p", "u", none, ⟨2024, 0, 1⟩, ["a"], false⟩]).edges.filter
        (fun e => e.toId = n.nodeId)).length := by
  decide

/-- Witness for C7 at a concrete input with distinct slugs. -/
theorem C7_edges_witness :
    ((((publishedPosts [⟨"p", "t", none, ⟨2024, 0, 2⟩, ["a"], false⟩,
          ⟨"q", "u", none, ⟨2024, 0, 1⟩, ["b"], false⟩]).filter
        tagged).map Post.slug).Nodup) ∧
      (∀ n ∈ (mapPostsToGraph LAYOUT_CONSTANTS ⟨2026, 9, 11⟩
          [⟨"p", "t", none, ⟨2024, 0, 2⟩, ["a"], false⟩,
            ⟨"q", "u", none, ⟨2024, 0, 1⟩, ["b"], false⟩]).nodes,
        ((mapPostsToGraph LAYOUT_CONSTANTS ⟨2026, 9, 11⟩
            [⟨"p", "t", none, ⟨2024, 0, 2⟩, ["a"], false⟩,
              ⟨"q", "u", none, ⟨2024, 0, 1⟩, ["b"], false⟩]).edges.filter
          (fun e => e.toId = n.nodeId)).length ≤ 1) :=
  ⟨by decide,
    (C7_edges ⟨2026, 9, 11⟩
      [⟨"p", "t", none, ⟨2024, 0, 2⟩, ["a"], false⟩,
        ⟨"q", "u", none, ⟨2024, 0, 1⟩, ["b"], false⟩]).2 (by decide)⟩

/-- C6 (amended): for a newest-first input, node ids are unique provided
the commit ids derived from the records are pairwise distinct and the
slugs of tagged published records are pairwise distinct. -/
theorem C6_unique_ids (today : Date) (posts : List Post)
    (hsort : List.Pairwise (fun a b => dateLE b.date a.date = true) posts)
    (hc : ((publishedPosts posts).map commitIdOf).Nodup)
    (hs : (((publishedPosts posts).filter tagged).map Post.slug).Nodup) :
    ((mapPostsToGraph LAYOUT_CONSTANTS today posts).nodes.map
      GraphNode.nodeId).Nodup := by
  have hpub : List.Pairwise (fun a b => dateLE b.date a.date = true)
      (publishedPosts posts) :=
    List.Pairwise.sublist (List.filter_sublist _) hsort
  have hseg : (mapPostsToGraph LAYOUT_CONSTANTS today posts).nodes.map
      GraphNode.nodeId =
      idsAux (mkBranches LAYOUT_CONSTANTS (publishedPosts posts))
          (publishedPosts posts) ++
        ((sepPass LAYOUT_CONSTANTS 0 none (publishedPosts posts)).map
            GraphNode.nodeId ++
          (todayNodes LAYOUT_CONSTANTS today (publishedPosts posts)).map
            GraphNode.nodeId) := by
    show ((buildMain LAYOUT_CONSTANTS
        (mkBranches LAYOUT_CONSTANTS (publishedPosts posts)) 0
        (publishedPosts posts)).1 ++
        sepPass LAYOUT_CONSTANTS 0 none (publishedPosts posts) ++
        todayNodes LAYOUT_CONSTANTS today (publishedPosts posts)).map
          GraphNode.nodeId = _
    simp only [List.map_append, List.append_assoc]
    rw [buildMain_map_id]
  rw [hseg]
  have hs2 : (((publishedPosts posts).filter
      (routeTagged (mkBranches LAYOUT_CONSTANTS
        (publishedPosts posts)))).map Post.slug).Nodup := by
    have hfe : (publishedPosts posts).filter
        (routeTagged (mkBranches LAYOUT_CONSTANTS
          (publishedPosts posts))) =
        (publishedPosts posts).filter tagged :=
      List.filter_congr (fun p hp => routeTagged_iff LAYOUT_CONSTANTS hp)
    rw [hfe]
    exact hs
  have hS1 := idsAux_nodup
    (mkBranches LAYOUT_CONSTANTS (publishedPosts posts))
    (publishedPosts posts) hc hs2
  have hS2 := sepPass_ids_nodup LAYOUT_CONSTANTS (publishedPosts posts)
    hpub
  have hS3 : ((todayNodes LAYOUT_CONSTANTS today
      (publishedPosts posts)).map GraphNode.nodeId).Nodup := by
    rw [todayNodes_eq,
      if_pos (show (0 : Int) < LAYOUT_CONSTANTS.PADDING_TOP by decide)]
    simp
  have hsepShape : ∀ s ∈ (sepPass LAYOUT_CONSTANTS 0 none
      (publishedPosts posts)).map GraphNode.nodeId,
      (∃ yr, s = "separator-year-" ++ natStr yr) ∨
        (∃ yr mo, s = "separator-month-" ++ natStr yr ++ "-" ++
          natStr mo) := by
    intro s hmem
    obtain ⟨n, hn, rfl⟩ := List.mem_map.mp hmem
    rcases sepPass_shape LAYOUT_CONSTANTS 0 none _ n hn with
      ⟨k, yr, rfl⟩ | ⟨k, yr, mo, rfl⟩
    · exact Or.inl ⟨yr, rfl⟩
    · exact Or.inr ⟨yr, mo, rfl⟩
  have htodShape : ∀ s ∈ (todayNodes LAYOUT_CONSTANTS today
      (publishedPosts posts)).map GraphNode.nodeId,
      s = "today-marker" := by
    rw [todayNodes_eq,
      if_pos (show (0 : Int) < LAYOUT_CONSTANTS.PADDING_TOP by decide)]
    intro s hmem
    simpa using hmem
  rw [List.nodup_append]
  refine ⟨hS1, ?_, ?_⟩
  · rw [List.nodup_append]
    refine ⟨hS2, hS3, ?_⟩
    intro s hm2 hm3
    have h3 := htodShape s hm3
    rcases hsepShape s hm2 with ⟨yr, rfl⟩ | ⟨yr, mo, rfl⟩
    · exact yearId_ne_todayId _ h3
    · exact monthId_ne_todayId _ _ h3
  · intro s hm1 hm23
    rcases mem_idsAux _ _ s hm1 with ⟨q, hq, rfl⟩ | ⟨q, hq, rfl⟩
    · rcases List.mem_append.mp hm23 with hm | hm
      · rcases hsepShape _ hm with ⟨yr, he⟩ | ⟨yr, mo, he⟩
        · rw [commitIdOf_shape] at he
          exact commitId_ne_yearId _ _ _ he
        · rw [commitIdOf_shape] at he
          exact commitId_ne_monthId _ _ _ _ he
      · have h3 := htodShape _ hm
        rw [commitIdOf_shape] at h3
        exact commitId_ne_todayId _ _ h3
    · rcases List.mem_append.mp hm23 with hm | hm
      · rcases hsepShape _ hm with ⟨yr, he⟩ | ⟨yr, mo, he⟩
        · rw [mergeIdOf_shape] at he
          exact mergeId_ne_yearId _ _ he
        · rw [mergeIdOf_shape] at he
          exact mergeId_ne_monthId _ _ _ he
      · have h3 := htodShape _ hm
        rw [mergeIdOf_shape] at h3
        exact mergeId_ne_todayId _ h3

/-- Counterexample to C6 as stated: two newest-first records sharing a slug
produce two nodes with the same id. -/
theorem C6_counterexample :
    ¬ ((mapPostsToGraph LAYOUT_CONSTANTS ⟨2026, 9, 11⟩
        [⟨"p", "t", none, ⟨2024, 0, 1⟩, [], false⟩,
          ⟨"p", "u", none, ⟨2024, 0, 1⟩, [], false⟩]).nodes.map
      GraphNode.nodeId).Nodup := by
  decide

/-- Witness for C6 at a concrete newest-first input with distinct
slugs. -/
theorem C6_unique_ids_witness :
    List.Pairwise (fun a b => dateLE b.date a.date = true)
        [(⟨"p", "t", none, ⟨2024, 0, 2⟩, ["a"], false⟩ : Post),
          ⟨"q", "u", none, ⟨2024, 0, 1⟩, [], false⟩] ∧
      ((mapPostsToGraph LAYOUT_CONSTANTS ⟨2026, 9, 11⟩
          [⟨"p", "t", none, ⟨2024, 0, 2⟩, ["a"], false⟩,
            ⟨"q", "u", none, ⟨2024, 0, 1⟩, [], false⟩]).nodes.map
        GraphNode.nodeId).Nodup :=
  ⟨by decide,
    C6_unique_ids ⟨2026, 9, 11⟩
      [⟨"p", "t", none, ⟨2024, 0, 2⟩, ["a"], false⟩,
        ⟨"q", "u", none, ⟨2024, 0, 1⟩, [], false⟩]
      (by decide) (by decide) (by decide)⟩

/-- Witness for C8 at a concrete input with an ordinary tag. -/
theorem C8_unique_main_branch_witness :
    (∀ p ∈ publishedPosts [⟨"p", "t", none, ⟨2024, 0, 1⟩, ["a"], false⟩],
        tagged p = true → branchIdOf p ≠ "main") ∧
      ((mapPostsToGraph LAYOUT_CONSTANTS ⟨2026, 9, 11⟩
          [⟨"p", "t", none, ⟨2024, 0, 1⟩, ["a"], false⟩]).branches.filter
        (fun b => b.id = "main")).length = 1 :=
  ⟨by decide,
    C8_unique_main_branch ⟨2026, 9, 11⟩
      [⟨"p", "t", none, ⟨2024, 0, 1⟩, ["a"], false⟩] (by decide)⟩

/-- C1: `mapPostsToGraph` emits exactly one Commit node per non-draft
record (drafts yield none), the record at non-draft index `j` has vertical
coordinate `y = PADDING_TOP + j * ROW_HEIGHT = 24 + 48 j`, and hence the
`y` of Commit nodes is strictly increasing in that index. -/
theorem C1_commit_per_record (today : Date) (posts : List Post) :
    (commitNodes (mapPostsToGraph LAYOUT_CONSTANTS today posts)).length =
        (publishedPosts posts).length ∧
      (∀ j (hj : j < (commitNodes
            (mapPostsToGraph LAYOUT_CONSTANTS today posts)).length)
          (hp : j < (publishedPosts posts).length),
        ((commitNodes (mapPostsToGraph LAYOUT_CONSTANTS today
            posts)).get ⟨j, hj⟩).nodeY = 24 + 48 * (j : Int) ∧
          ((commitNodes (mapPostsToGraph LAYOUT_CONSTANTS today
              posts)).get ⟨j, hj⟩).nodeSlug =
            ((publishedPosts posts).get ⟨j, hp⟩).slug) ∧
      (∀ j k (hj : j < (commitNodes
            (mapPostsToGraph LAYOUT_CONSTANTS today posts)).length)
          (hk : k < (commitNodes
            (mapPostsToGraph LAYOUT_CONSTANTS today posts)).length),
        j < k →
          ((commitNodes (mapPostsToGraph LAYOUT_CONSTANTS today
              posts)).get ⟨j, hj⟩).nodeY <
            ((commitNodes (mapPostsToGraph LAYOUT_CONSTANTS today
              posts)).get ⟨k, hk⟩).nodeY) := by
  have hC := commitNodes_eq LAYOUT_CONSTANTS today posts
  have hlen : (commitNodes (mapPostsToGraph LAYOUT_CONSTANTS today
      posts)).length = (publishedPosts posts).length := by
    rw [hC, commitsAux_length]
  have hget : ∀ j (hj : j < (commitNodes (mapPostsToGraph LAYOUT_CONSTANTS
      today posts)).length) (hp : j < (publishedPosts posts).length),
      (commitNodes (mapPostsToGraph LAYOUT_CONSTANTS today
        posts)).get ⟨j, hj⟩ =
        commitNodeOf LAYOUT_CONSTANTS
          (mkBranches LAYOUT_CONSTANTS (publishedPosts posts)) j
          ((publishedPosts posts).get ⟨j, hp⟩) := by
    intro j hj hp
    have h2 : (commitsAux LAYOUT_CONSTANTS
        (mkBranches LAYOUT_CONSTANTS (publishedPosts posts)) 0
        (publishedPosts posts)).get? j =
        some ((commitNodes (mapPostsToGraph LAYOUT_CONSTANTS today
          posts)).get ⟨j, hj⟩) := by
      rw [← hC]
      exact List.get?_eq_get hj
    rw [commitsAux_get?, List.get?_eq_get hp] at h2
    simp only [Option.map_some', Option.some.injEq, Nat.zero_add] at h2
    exact h2.symm
  refine ⟨hlen, ?_, ?_⟩
  · intro j hj hp
    rw [hget j hj hp, commitNodeOf_y, commitNodeOf_slug, rowY_default]
    exact ⟨rfl, rfl⟩
  · intro j k hj hk hlt
    have hpj : j < (publishedPosts posts).length := hlen ▸ hj
    have hpk : k < (publishedPosts posts).length := hlen ▸ hk
    rw [hget j hj hpj, hget k hk hpk, commitNodeOf_y, commitNodeOf_y,
      rowY_default, rowY_default]
    omega

/-- C3: the branch list is main first (fixed `x = 150`), then the distinct
primary tags of the non-draft records sorted case-insensitively ascending;
the tag branch at rank `j` out of `N` sits at `x = 150 - (N - j) * 80`, so
tag-branch `x` strictly increases with rank. -/
theorem C3_branch_order (today : Date) (posts : List Post) :
    (mapPostsToGraph LAYOUT_CONSTANTS today posts).branches.head? =
        some ⟨"main", "main", "#6b7280", 150⟩ ∧
      ((mapPostsToGraph LAYOUT_CONSTANTS today posts).branches.tail.map
          Branch.name).Pairwise tagLE ∧
      ((mapPostsToGraph LAYOUT_CONSTANTS today posts).branches.tail.map
          Branch.name).Nodup ∧
      (∀ t : String,
        t ∈ (mapPostsToGraph LAYOUT_CONSTANTS today
            posts).branches.tail.map Branch.name ↔
          ∃ p ∈ publishedPosts posts, primaryRawTag p = some t) ∧
      (∀ j (hj : j < (mapPostsToGraph LAYOUT_CONSTANTS today
          posts).branches.tail.length),
        ((mapPostsToGraph LAYOUT_CONSTANTS today posts).branches.tail.get
            ⟨j, hj⟩).x =
          150 - (((mapPostsToGraph LAYOUT_CONSTANTS today
              posts).branches.tail.length - j : Nat) : Int) * 80) ∧
      (∀ j k (hj : j < (mapPostsToGraph LAYOUT_CONSTANTS today
            posts).branches.tail.length)
          (hk : k < (mapPostsToGraph LAYOUT_CONSTANTS today
            posts).branches.tail.length),
        j < k →
          ((mapPostsToGraph LAYOUT_CONSTANTS today posts).branches.tail.get
              ⟨j, hj⟩).x <
            ((mapPostsToGraph LAYOUT_CONSTANTS today
              posts).branches.tail.get ⟨k, hk⟩).x) := by
  have hbr : (mapPostsToGraph LAYOUT_CONSTANTS today posts).branches =
      mkBranches LAYOUT_CONSTANTS (publishedPosts posts) := rfl
  have htail : (mapPostsToGraph LAYOUT_CONSTANTS today
      posts).branches.tail =
      tagBranches LAYOUT_CONSTANTS
        (sortedTagsOf (publishedPosts posts)).length 0
        (sortedTagsOf (publishedPosts posts)) := by
    rw [hbr]; rfl
  have hlen : (mapPostsToGraph LAYOUT_CONSTANTS today
      posts).branches.tail.length =
      (sortedTagsOf (publishedPosts posts)).length := by
    rw [htail, tagBranches_length]
  have hnames : (mapPostsToGraph LAYOUT_CONSTANTS today
      posts).branches.tail.map Branch.name =
      sortedTagsOf (publishedPosts posts) := by
    rw [htail, tagBranches_names]
  have hx : ∀ j (hj : j < (mapPostsToGraph LAYOUT_CONSTANTS today
      posts).branches.tail.length),
      ((mapPostsToGraph LAYOUT_CONSTANTS today posts).branches.tail.get
          ⟨j, hj⟩).x =
        150 - (((sortedTagsOf (publishedPosts posts)).length - j :
            Nat) : Int) * 80 := by
    intro j hj
    have hj2 : j < (sortedTagsOf (publishedPosts posts)).length := by
      rw [← hlen]; exact hj
    have h1 : (tagBranches LAYOUT_CONSTANTS
        (sortedTagsOf (publishedPosts posts)).length 0
        (sortedTagsOf (publishedPosts posts))).get? j =
        some ((mapPostsToGraph LAYOUT_CONSTANTS today
          posts).branches.tail.get ⟨j, hj⟩) := by
      rw [← htail]
      exact List.get?_eq_get hj
    rw [tagBranches_get?, List.get?_eq_get hj2] at h1
    simp only [Option.map_some', Option.some.injEq] at h1
    rw [← h1]
    simp [LAYOUT_CONSTANTS]
  refine ⟨by rw [hbr]; rfl, ?_, ?_, ?_, ?_, ?_⟩
  · rw [hnames]
    exact List.sorted_insertionSort tagLE (collectTags (publishedPosts posts))
  · rw [hnames, sortedTagsOf]
    exact (List.perm_insertionSort tagLE _).nodup_iff.mpr
      (collectTags_nodup _)
  · intro t
    rw [hnames]
    exact mem_sortedTagsOf t _
  · intro j hj
    rw [hx j hj, hlen]
  · intro j k hj hk hlt
    rw [hx j hj, hx k hk]
    have hk2 : k < (sortedTagsOf (publishedPosts posts)).length := by
      rw [← hlen]; exact hk
    omega

/-- C4: between adjacent non-draft records the separator sweep inserts at
most one separator, in adjacent-pair form: a year separator (labeled with
the new year) when the years differ, else a month separator when only the
month differs, at `y` half a row above the current record; zero or one
surviving record yields no separator. -/
theorem C4_separators (today : Date) (posts : List Post) :
    sepNodes (mapPostsToGraph LAYOUT_CONSTANTS today posts) =
        specSeps LAYOUT_CONSTANTS (publishedPosts posts) ∧
      (∀ (i : Nat) (prev cur : Post),
        (boundarySeps LAYOUT_CONSTANTS i prev cur).length ≤ 1) ∧
      (∀ (i yr mo : Nat),
        (yearSepNode LAYOUT_CONSTANTS i yr).nodeY =
            rowY LAYOUT_CONSTANTS i - 48 / 2 ∧
          (monthSepNode LAYOUT_CONSTANTS i yr mo).nodeY =
            rowY LAYOUT_CONSTANTS i - 48 / 2) ∧
      ((publishedPosts posts).length ≤ 1 →
        sepNodes (mapPostsToGraph LAYOUT_CONSTANTS today posts) = []) := by
  have heq : sepNodes (mapPostsToGraph LAYOUT_CONSTANTS today posts) =
      specSeps LAYOUT_CONSTANTS (publishedPosts posts) := by
    rw [sepNodes_eq, sepPass_eq_specSeps]
  refine ⟨heq, ?_, ?_, ?_⟩
  · intro i prev cur
    unfold boundarySeps
    split_ifs <;> simp
  · intro i yr mo
    exact ⟨rfl, rfl⟩
  · intro hle
    rw [heq]
    cases hpub : publishedPosts posts with
    | nil => rfl
    | cons p ps =>
      cases ps with
      | nil => rfl
      | cons q qs =>
        rw [hpub] at hle
        simp at hle

/-- C5: the today sweep emits at most one marker; when today is strictly
after the newest non-draft record's date the marker sits at the row of the
first record (newest to oldest) dated on-or-before today, when today is
on-or-before the newest record's date it sits at `y = PADDING_TOP = 24`,
and a marker is emitted only with strictly positive `y`. -/
theorem C5_today_marker (today : Date) (posts : List Post) :
    (todayMarks (mapPostsToGraph LAYOUT_CONSTANTS today posts)).length ≤
        1 ∧
      (∀ p ps, publishedPosts posts = p :: ps →
        dateLT p.date today = true →
          ∀ n ∈ todayMarks (mapPostsToGraph LAYOUT_CONSTANTS today posts),
            n.nodeY = rowY LAYOUT_CONSTANTS
              ((publishedPosts posts).findIdx
                (fun q => dateLE q.date today))) ∧
      (∀ p ps, publishedPosts posts = p :: ps →
        dateLE today p.date = true →
          ∀ n ∈ todayMarks (mapPostsToGraph LAYOUT_CONSTANTS today posts),
            n.nodeY = 24) ∧
      (∀ n ∈ todayMarks (mapPostsToGraph LAYOUT_CONSTANTS today posts),
        0 < n.nodeY) := by
  have hT : todayMarks (mapPostsToGraph LAYOUT_CONSTANTS today posts) =
      [todayNode today 24] := by
    rw [todayMarks_eq, todayNodes_eq]
    rfl
  refine ⟨?_, ?_, ?_, ?_⟩
  · rw [hT]; simp
  · intro p ps hpub hlt n hn
    rw [hT] at hn
    simp only [List.mem_singleton] at hn
    subst hn
    rw [hpub]
    rw [List.findIdx_cons]
    simp only [dateLE_of_dateLT hlt]
    rw [rowY_default]
    simp [todayNode, GraphNode.nodeY]
  · intro p ps hpub hle n hn
    rw [hT] at hn
    simp only [List.mem_singleton] at hn
    subst hn
    rfl
  · intro n hn
    rw [hT] at hn
    simp only [List.mem_singleton] at hn
    subst hn
    simp [todayNode, GraphNode.nodeY]

/-- Witness for C5 at concrete inputs exercising both the
today-after-newest and the today-on-or-before-newest branches. -/
theorem C5_today_marker_witness :
    (∀ n ∈ todayMarks (mapPostsToGraph LAYOUT_CONSTANTS ⟨2026, 9, 11⟩
        [⟨"p", "t", none, ⟨2024, 0, 1⟩, [], false⟩]),
      n.nodeY = rowY LAYOUT_CONSTANTS
        ((publishedPosts [⟨"p", "t", none, ⟨2024, 0, 1⟩, [], false⟩]).findIdx
          (fun q => dateLE q.date ⟨2026, 9, 11⟩))) ∧
      (∀ n ∈ todayMarks (mapPostsToGraph LAYOUT_CONSTANTS ⟨2020, 0, 1⟩
          [⟨"p", "t", none, ⟨2024, 0, 1⟩, [], false⟩]),
        n.nodeY = 24) :=
  ⟨(C5_today_marker ⟨2026, 9, 11⟩
        [⟨"p", "t", none, ⟨2024, 0, 1⟩, [], false⟩]).2.1
      ⟨"p", "t", none, ⟨2024, 0, 1⟩, [], false⟩ [] (by decide) (by decide),
    (C5_today_marker ⟨2020, 0, 1⟩
        [⟨"p", "t", none, ⟨2024, 0, 1⟩, [], false⟩]).2.2.1
      ⟨"p", "t", none, ⟨2024, 0, 1⟩, [], false⟩ [] (by decide) (by decide)⟩

/-- C10: for the empty input, and for any input whose records are all
drafts, the model has only the main branch, no edges, and exactly one node:
the today marker with id `"today-marker"` at `x = 0`, `y = PADDING_TOP =
24`, always emitted because the padding is strictly positive. -/
theorem C10_empty_input (today : Date) (posts : List Post)
    (hd : ∀ p ∈ posts, p.draft = true) :
    (mapPostsToGraph LAYOUT_CONSTANTS today posts).branches =
        [⟨"main", "main", "#6b7280", 150⟩] ∧
      (mapPostsToGraph LAYOUT_CONSTANTS today posts).edges = [] ∧
      (mapPostsToGraph LAYOUT_CONSTANTS today posts).nodes =
        [GraphNode.today "today-marker" today 0 24] := by
  have hpub : publishedPosts posts = [] := by
    rw [publishedPosts, List.filter_eq_nil]
    intro p hp
    simp [hd p hp]
  simp only [mapPostsToGraph, hpub]
  exact ⟨rfl, rfl, rfl⟩

/-- Witness for C10 at a concrete all-draft input. -/
theorem C10_empty_input_witness :
    (∀ p ∈ [(⟨"a", "t", none, ⟨2024, 0, 1⟩, ["x"], true⟩ : Post)],
        p.draft = true) ∧
      (mapPostsToGraph LAYOUT_CONSTANTS ⟨2026, 9, 11⟩
          [⟨"a", "t", none, ⟨2024, 0, 1⟩, ["x"], true⟩]).nodes =
        [GraphNode.today "today-marker" ⟨2026, 9, 11⟩ 0 24] :=
  ⟨by decide,
    (C10_empty_input ⟨2026, 9, 11⟩
        [⟨"a", "t", none, ⟨2024, 0, 1⟩, ["x"], true⟩] (by decide)).2.2⟩

end GitGraph
